import Mathlib

/-!
Shallow embedding of the core algorithms of the `gps_analysis` repository
(`splits.py`, `utils.py`, `sphere.py`) together with proofs about them.

Modelling conventions:
* Python floats are idealised as exact rationals (`ℚ`); the trigonometric
  geometry of `sphere.py` is embedded over `ℝ`.
* Fallible code paths (pandas `KeyError` / `IndexError`, non-termination)
  are modelled with `Option`: `none` means the Python code raises or loops.
* The `geodesy` module imported by `splits.py` is not part of the sources;
  its primitives are abstracted as an explicit parameter record (`Geo`),
  following the spec's description of them as pure stateless functions
  (`sphere.py` exhibits the same primitives concretely, over `ℝ`).
-/

/-- Rounding of a rational to the nearest integer with ties to even,
the behaviour of `numpy.round` / `pandas.round` (idealised to exact
rationals). -/
def roundHalfEven (q : ℚ) : ℤ :=
  if Int.fract q = 1 / 2 then (if ⌊q⌋ % 2 = 0 then ⌊q⌋ else ⌊q⌋ + 1)
  else round q

/-- Rounding to three decimal places, the `.round(3)` used by
`find_crossing_times` and `find_best_times` for their distance indices. -/
def round3 (q : ℚ) : ℚ := (roundHalfEven (q * 1000) : ℚ) / 1000

/-- Largest finite IEEE-754 double, the value `numpy.nan_to_num`
substitutes for `+inf`. -/
def FMAXQ : ℚ := (2 ^ 53 - 1) * 2 ^ 971

/-- Model of `np.nan_to_num(num / den)` for IEEE doubles idealised as exact
rationals: division by zero yields `nan` (when `num = 0`, mapped to `0`)
or `±inf` (mapped to `±FMAXQ`); otherwise exact division. -/
def nanToNumDiv (num den : ℚ) : ℚ :=
  if den = 0 then (if num = 0 then 0 else if 0 < num then FMAXQ else -FMAXQ)
  else num / den

/-- Exact value of `np.sign(np.cos(np.radians θ))` for a rational number of
degrees `θ`: the cosine is positive on `[0°,90°) ∪ (270°,360°)` modulo
`360°`, zero at `90°` and `270°`, negative in between. -/
def sgnCosDeg (θ : ℚ) : ℤ :=
  let r := θ - 360 * ((⌊θ / 360⌋ : ℤ) : ℚ)
  if r < 90 then 1
  else if r = 90 then 0
  else if r < 270 then -1
  else if r = 270 then 0
  else 1

/-- One row of the Track Table (§3 of the spec): a position, the direction
of travel, a timestamp, elapsed time in seconds and cumulative distance
in km. -/
structure TrackPoint where
  lat : ℚ
  lon : ℚ
  bearing : ℚ
  time : ℚ
  distance : ℚ
  timeElapsed : ℚ
  deriving DecidableEq

instance : Inhabited TrackPoint := ⟨⟨0, 0, 0, 0, 0, 0⟩⟩

/-- A Track is an ordered sequence of track points. -/
abbrev Track := List TrackPoint

/-- The Track invariants of §3: length at least 2, strictly increasing
time (hence strictly increasing elapsed time) and non-decreasing
cumulative distance. -/
def validTrack (t : Track) : Prop :=
  2 ≤ t.length ∧
    List.Chain' (fun a b => a.time < b.time) t ∧
    List.Chain' (fun a b => a.timeElapsed < b.timeElapsed) t ∧
    List.Chain' (fun a b => a.distance ≤ b.distance) t

instance (t : Track) : Decidable (validTrack t) :=
  inferInstanceAs (Decidable (2 ≤ t.length ∧
    List.Chain' (fun a b : TrackPoint => a.time < b.time) t ∧
    List.Chain' (fun a b : TrackPoint => a.timeElapsed < b.timeElapsed) t ∧
    List.Chain' (fun a b : TrackPoint => a.distance ≤ b.distance) t))

/-- Column `positions.distance` of the track table. -/
def trackDists (t : Track) : List ℚ := t.map (·.distance)

/-- Column `positions.timeElapsed.dt.total_seconds()` of the track table. -/
def teList (t : Track) : List ℚ := t.map (·.timeElapsed)

/-- Value of `positions.distance.iloc[-1]` (defaulting to 0 for the empty
track, on which the Python expression raises; callers guard on emptiness). -/
def totalDistance (t : Track) : ℚ := ((trackDists t).getLast?).getD 0

/-! ## `utils.is_pareto_efficient`

The iterative dominance sweep of `utils.py`, specialised to the
two-column cost arrays used by `calc_pareto_front`.  The working array is
represented as `done ++ cur :: rest` where `cur` is the element at the
current `next_point_index`; one loop iteration filters the whole array by
`np.any(costs < costs[next_point_index], axis=1)` (forcing the current
element to be kept) and advances to the first remaining later element.
The fuel argument bounds the number of iterations; `rest.length` always
suffices because each iteration consumes at least one later element. -/

/-- An indexed cost row: original index paired with the two cost columns. -/
abbrev CostEntry := ℕ × (ℚ × ℚ)

/-- The mask `np.any(costs < costs[next_point_index], axis=1)`: keep `q`
iff it is strictly smaller than the current row in some column. -/
def paretoKeep (cur q : CostEntry) : Bool :=
  decide (q.2.1 < cur.2.1) || decide (q.2.2 < cur.2.2)

/-- The sweep loop of `is_pareto_efficient`.  With fuel at least
`rest.length` the fuel never runs out before `rest` is exhausted, so the
fuel-0 case (which coincides with the terminating case on an exhausted
remainder) is never hit early. -/
def paretoSweep : ℕ → List CostEntry → CostEntry → List CostEntry → List CostEntry
  | 0, done, cur, _ => done.filter (paretoKeep cur) ++ [cur]
  | fuel + 1, done, cur, rest =>
    match rest.filter (paretoKeep cur) with
    | [] => done.filter (paretoKeep cur) ++ [cur]
    | a :: tl => paretoSweep fuel (done.filter (paretoKeep cur) ++ [cur]) a tl

/-- `utils.is_pareto_efficient` on a two-column cost matrix, returning the
retained original indices (the `return_mask=False` form; the boolean mask
form selects exactly the rows with these indices, in order). -/
def is_pareto_efficient (costs : List (ℚ × ℚ)) : List ℕ :=
  match costs.enum with
  | [] => []
  | c :: rest => (paretoSweep rest.length [] c rest).map Prod.fst

/-! ## `splits.calc_pareto_front` -/

/-- The index pairs produced by `np.triu_indices(n, 1)`, in row-major
order: all `(i, j)` with `i < j < n`. -/
def pairIdx (n : ℕ) : List (ℕ × ℕ) :=
  (List.range n).flatMap (fun i => (List.range' (i + 1) (n - (i + 1))).map (fun j => (i, j)))

/-- The `(distance_delta, speed)` sample pairs of `calc_pareto_front`:
for each `i < j`, the distance difference and
`1000 * np.nan_to_num(dist_diff / time_diff)`. -/
def pairPoints (t : Track) : List (ℚ × ℚ) :=
  (pairIdx t.length).map (fun ij =>
    let pa := t.getD ij.1 default
    let pb := t.getD ij.2 default
    let dd := pb.distance - pa.distance
    (dd, 1000 * nanToNumDiv dd (pb.timeElapsed - pa.timeElapsed)))

/-- `splits.calc_pareto_front`: keep the sample pairs whose index is
Pareto-retained for the negated (minimised) costs `(-dist, -speed)`. -/
def calc_pareto_front (t : Track) : List (ℚ × ℚ) :=
  let pts := pairPoints t
  let eff := is_pareto_efficient (pts.map (fun p => (-p.1, -p.2)))
  (pts.enum.filter (fun e => decide (e.1 ∈ eff))).map Prod.snd

/-! ## `splits.find_best_times` -/

/-- A row of the table returned by `find_best_times`: the index
(start distance rounded to 3 decimals), the elapsed time of the window in
seconds, and the split pace `time / distance / 2`. -/
structure SplitRec where
  start : ℚ
  time : ℚ
  split : ℚ
  deriving DecidableEq

/-- Piecewise-linear interpolation `np.interp x xp fp` (knots given as
pairs), for non-decreasing knots: clip below the first and above the last
knot, otherwise interpolate on the bracketing segment. -/
def npInterpGo (x : ℚ) : ℚ → ℚ → List (ℚ × ℚ) → ℚ
  | _, f0, [] => f0
  | x0, f0, (x1, f1) :: rest =>
    if x < x1 then f0 + (f1 - f0) * (x - x0) / (x1 - x0)
    else npInterpGo x x1 f1 rest

/-- Model of `np.interp` (empty knot list never occurs in guarded calls). -/
def npInterp (x : ℚ) : List (ℚ × ℚ) → ℚ
  | [] => 0
  | (x0, f0) :: rest => if x < x0 then f0 else npInterpGo x x0 f0 rest

/-- Insertion step of a stable argsort: insert index `v` after all indices
with key not exceeding its key. -/
def insertArg (key : List ℚ) (v : ℕ) : List ℕ → List ℕ
  | [] => [v]
  | x :: xs => if key.getD x 0 ≤ key.getD v 0 then x :: insertArg key v xs else v :: x :: xs

/-- `Series.argsort`: the positions `0, …, n-1` sorted by key value.
NumPy's default quicksort leaves the order of equal keys unspecified;
this model resolves ties by original position (stable). -/
def argsortQ (key : List ℚ) : List ℕ :=
  (List.range key.length).foldl (fun acc i => insertArg key i acc) []

/-- Binary search step of `np.searchsorted(a, v, side='left')`
(`bisect_left`): narrow `[lo, hi)` to the insertion point.  The fuel only
bounds the iteration count; `hi - lo` steps always suffice. -/
def bisectLeftAux (a : List ℚ) (v : ℚ) : ℕ → ℕ → ℕ → ℕ
  | 0, lo, _ => lo
  | fuel + 1, lo, hi =>
    if lo < hi then
      let mid := (lo + hi) / 2
      if a.getD mid 0 < v then bisectLeftAux a v fuel (mid + 1) hi
      else bisectLeftAux a v fuel lo mid
    else lo

/-- `np.searchsorted(a, v, side='left')`. -/
def bisectLeft (a : List ℚ) (v : ℚ) : ℕ := bisectLeftAux a v a.length 0 a.length

/-- Label lookup in a label-value series (the semantics of pandas integer
label indexing `series[label]`, `none` meaning `KeyError`). -/
def lookupLbl (k : ℕ) : List (ℕ × ℚ) → Option ℚ
  | [] => none
  | (a, v) :: rest => if a = k then some v else lookupLbl k rest

/-- `unblocked[i0:i1] = False`: clear the flags at positions in `[i0, i1)`. -/
def blockRange (ub : List Bool) (i0 i1 : ℕ) : List Bool :=
  ub.enum.map (fun e => if i0 ≤ e.1 ∧ e.1 < i1 then false else e.2)

/-- The candidate-window series `positions.distance[sel]` of
`find_best_times`: label (pandas index) and distance of every sample with
`distance + d < total_distance` (note the strict inequality in the
source).  Empty track: `iloc[-1]` raises; the raise is modelled in
`bestSelection`. -/
def candSeries (t : Track) (d : ℚ) : List (ℕ × ℚ) :=
  match (trackDists t).getLast? with
  | none => []
  | some total => (trackDists t).enum.filter (fun e => decide (e.2 + d < total))

/-- The labels of the candidate window starts. -/
def candLabels (t : Track) (d : ℚ) : List ℕ := (candSeries t d).map Prod.fst

/-- The candidate start distances, in positional order. -/
def candD (t : Track) (d : ℚ) : List ℚ := (candSeries t d).map Prod.snd

/-- `end_distances = distances + distance`. -/
def candE (t : Track) (d : ℚ) : List ℚ := (candD t d).map (· + d)

/-- `dist_times`: for each candidate (with its label), the interpolated
elapsed time at `start + d` minus the elapsed time at the start sample. -/
def distTimesL (t : Track) (d : ℚ) : List (ℕ × ℚ) :=
  (candSeries t d).map (fun e =>
    (e.1, npInterp (e.2 + d) ((trackDists t).zip (teList t)) - (teList t).getD e.1 0))

/-- `best_ordering = dist_times.argsort().values`. -/
def bestOrdering (t : Track) (d : ℚ) : List ℕ :=
  argsortQ ((distTimesL t d).map Prod.snd)

/-- The greedy selection loop of `find_best_times`.  Each iteration takes
the fastest still-unblocked candidate `nb` (a positional index), looks its
start distance up by label (`distances[next_best]` is label indexing in
the source — a `KeyError`, modelled as `none`, if the label is absent),
and blocks the positional range
`[searchsorted(end_distances, start), searchsorted(distances, start + d))`.
`none` on fuel exhaustion models non-termination of the Python loop
(which occurs e.g. for `d ≤ 0`); `candidates + 1` fuel suffices whenever
`d > 0`. -/
def greedyLoop (d : ℚ) (cand : List (ℕ × ℚ)) (cD cE : List ℚ) (ordering : List ℕ) :
    ℕ → List Bool → List ℕ → Option (List ℕ)
  | 0, _, _ => none
  | fuel + 1, ub, acc =>
    if ub.any id then
      match ordering.filter (fun p => ub.getD p false) with
      | [] => none
      | nb :: _ =>
        match lookupLbl nb cand with
        | none => none
        | some dv =>
          greedyLoop d cand cD cE ordering fuel
            (blockRange ub (bisectLeft cE dv) (bisectLeft cD (dv + d))) (nb :: acc)
    else some acc.reverse

/-- The list `best` of selected candidate positions, in selection order
(`none`: empty track, or the loop does not terminate / raises). -/
def bestSelection (t : Track) (d : ℚ) : Option (List ℕ) :=
  match (trackDists t).getLast? with
  | none => none
  | some _ =>
    greedyLoop d (candSeries t d) (candD t d) (candE t d) (bestOrdering t d)
      ((candSeries t d).length + 1) (List.replicate (candSeries t d).length true) []

/-- Assembly of the returned table: `dist_times[best]` and
`distances[best]` are label lookups (`KeyError`, i.e. `none`, on a missing
label), the index is the start distance rounded to 3 decimals, and
`split = time / d / 2`. -/
def assembleRecs (t : Track) (d : ℚ) : List ℕ → Option (List SplitRec)
  | [] => some []
  | p :: ps =>
    match lookupLbl p (distTimesL t d), lookupLbl p (candSeries t d),
        assembleRecs t d ps with
    | some tv, some dv, some rest =>
      some ({ start := round3 dv, time := tv, split := tv / d / 2 } :: rest)
    | _, _, _ => none

/-- `splits.find_best_times` (without the optional auxiliary-column
averaging, which only appends extra columns). -/
def findBestTimes (t : Track) (d : ℚ) : Option (List SplitRec) :=
  match bestSelection t d with
  | none => none
  | some best => assembleRecs t d best

/-! ## `splits.find_crossing_times` -/

/-- A Gate (§3): a reference position plus its forward bearing. -/
structure Gate where
  lat : ℚ
  lon : ℚ
  bearing : ℚ
  deriving DecidableEq

/-- Modelled from the spec: the `geodesy` module imported by `splits.py`
is not among the sources; per §4.1 its primitives are pure, stateless
functions over positions.  They are abstracted here as a record over an
arbitrary type `I` of intersection positions: `haversine_km` from a track
point to the gate, `path_intersections` applied pointwise to a
(latitude, longitude, bearing) row and the gate, and `bearing` and
`haversine` from an intersection position to the gate.  `sphere.py`
realises the same primitives (see `Sphere` below). -/
structure Geo (I : Type) where
  haversine_km : TrackPoint → Gate → ℚ
  path_intersections : ℚ → ℚ → ℚ → Gate → I
  bearing : I → Gate → ℚ
  haversine : I → Gate → ℚ

/-- `positions[close_points]`: the rows within `thresh` of the gate. -/
def closeList {I : Type} (geo : Geo I) (positions : Track) (gate : Gate) (thresh : ℚ) : Track :=
  positions.filter (fun p => decide (geo.haversine_km p gate < thresh))

/-- `DataFrame.copy()`: the returned object is a fresh value, so writes to
it never reach the object it was copied from. -/
def copyTrack (t : Track) : Track := t

/-- The column assignment `close_positions.bearing = loc.bearing + 90`,
applied to the copy. -/
def setBearingAll (b : ℚ) (t : Track) : Track := t.map (fun p => { p with bearing := b })

/-- The filtered copy with the overridden bearing, as passed to
`path_intersections`. -/
def closeOverride {I : Type} (geo : Geo I) (positions : Track) (gate : Gate) (thresh : ℚ) : Track :=
  setBearingAll (gate.bearing + 90) (copyTrack (closeList geo positions gate thresh))

/-- The intersection frame: one intersection per retained row, indexed
`0, …, m-1`. -/
def intersList {I : Type} (geo : Geo I) (positions : Track) (gate : Gate) (thresh : ℚ) : List I :=
  (closeOverride geo positions gate thresh).map
    (fun p => geo.path_intersections p.lat p.lon p.bearing gate)

/-- `sgns = np.sign(np.cos(np.radians(bearings - loc.bearing)))`. -/
def sgnsList {I : Type} (geo : Geo I) (positions : Track) (gate : Gate) (thresh : ℚ) : List ℤ :=
  (intersList geo positions gate thresh).map (fun ip => sgnCosDeg (geo.bearing ip gate - gate.bearing))

/-- The haversine angular distances from each intersection to the gate. -/
def havsList {I : Type} (geo : Geo I) (positions : Track) (gate : Gate) (thresh : ℚ) : List ℚ :=
  (intersList geo positions gate thresh).map (fun ip => geo.haversine ip gate)

/-- `crossings`: the retained indices whose sign differs from the previous
one (`sgns != sgns.shift(fill_value=sgns.iloc[0])`; index 0 is compared
with itself and never a crossing). -/
def crossingIdx {I : Type} (geo : Geo I) (positions : Track) (gate : Gate) (thresh : ℚ) : List ℕ :=
  let sgns := sgnsList geo positions gate thresh
  (List.range sgns.length).filter
    (fun i => decide (0 < i) && decide (sgns.getD i 0 ≠ sgns.getD (i - 1) 0))

/-- The interpolation weight at crossing `i`:
`weight(*geodesy.haversine(intersections.loc[i:i+2], loc))`.  Pandas
label slicing is inclusive of both endpoints, so up to THREE rows
`i, i+1, i+2` enter the sum `ds[0] / sum(ds)` (fewer near the end of the
intersection frame). -/
def weightAt (hs : List ℚ) (i : ℕ) : ℚ :=
  match (hs.drop i).take 3 with
  | [] => 0
  | d0 :: rest => d0 / (d0 + rest.sum)

/-- `splits.find_crossing_times`: returns the list of
(interpolated distance rounded to 3 decimals, interpolated time) pairs.
`positions.time[crossings]` / `positions.time[crossings + 1]` are label
lookups into the ORIGINAL track (labels coincide with positions); a label
beyond the last row raises (`none`). -/
def findCrossingTimes {I : Type} (geo : Geo I) (positions : Track) (gate : Gate) (thresh : ℚ) :
    Option (List (ℚ × ℚ)) :=
  let sgns := sgnsList geo positions gate thresh
  if sgns.isEmpty then some []
  else
    let cross := crossingIdx geo positions gate thresh
    if cross.any (fun i => decide (positions.length ≤ i + 1)) then none
    else some (cross.map (fun i =>
      let w := weightAt (havsList geo positions gate thresh) i
      let p0 := positions.getD i default
      let p1 := positions.getD (i + 1) default
      (round3 (p0.distance + (p1.distance - p0.distance) * w),
        p0.time + (p1.time - p0.time) * w)))

/-- `find_crossing_times` together with the final value of the caller's
`positions` variable: the only assignment in the source writes the
`bearing` column of `close_positions`, which is a `.copy()` of the
filtered frame (`closeOverride`), so the input track is returned
unchanged. -/
def findCrossingFull {I : Type} (geo : Geo I) (positions : Track) (gate : Gate) (thresh : ℚ) :
    Option (List (ℚ × ℚ)) × Track :=
  (findCrossingTimes geo positions gate thresh, positions)

/-- Modelled from the spec, for comparison with the source (claim C2's
formulation): the interpolation weight uses ONLY the two bracketing
intersections, `w = d_i / (d_i + d_{i+1})`, and time and distance are
interpolated between the two bracketing RETAINED points. -/
def findCrossingTimes_claim {I : Type} (geo : Geo I) (positions : Track) (gate : Gate)
    (thresh : ℚ) : Option (List (ℚ × ℚ)) :=
  let close := closeOverride geo positions gate thresh
  let sgns := sgnsList geo positions gate thresh
  if sgns.isEmpty then some []
  else
    let cross := crossingIdx geo positions gate thresh
    if cross.any (fun i => decide (close.length ≤ i + 1)) then none
    else some (cross.map (fun i =>
      let hs := havsList geo positions gate thresh
      let w := hs.getD i 0 / (hs.getD i 0 + hs.getD (i + 1) 0)
      let p0 := close.getD i default
      let p1 := close.getD (i + 1) default
      (round3 (p0.distance + (p1.distance - p0.distance) * w),
        p0.time + (p1.time - p0.time) * w)))

/-! ## `sphere.py` over `ℝ` -/

namespace Sphere

/-- A latitude/longitude pair in degrees (`sphere.LatLon`). -/
structure LatLon where
  latitude : ℝ
  longitude : ℝ

/-- `np.radians`. -/
noncomputable def radians (x : ℝ) : ℝ := x * (Real.pi / 180)

/-- `np.arctan2` (four-quadrant arctangent; `arctan2 0 0 = 0`). -/
noncomputable def arctan2 (y x : ℝ) : ℝ :=
  if 0 < x then Real.arctan (y / x)
  else if x < 0 then
    (if 0 ≤ y then Real.arctan (y / x) + Real.pi else Real.arctan (y / x) - Real.pi)
  else if 0 < y then Real.pi / 2
  else if y < 0 then -(Real.pi / 2)
  else 0

/-- `sphere.haversine`: great-circle central angle between two positions. -/
noncomputable def haversine (pos1 pos2 : LatLon) : ℝ :=
  let phi1 := radians pos1.latitude
  let lam1 := radians pos1.longitude
  let phi2 := radians pos2.latitude
  let lam2 := radians pos2.longitude
  let sindphi := Real.sin ((phi2 - phi1) / 2) ^ 2
  let sindlam := Real.sin ((lam2 - lam1) / 2) ^ 2
  let a := sindphi + Real.cos phi1 * Real.cos phi2 * sindlam
  2 * arctan2 (Real.sqrt a) (Real.sqrt (1 - a))

/-- `sphere._AVG_EARTH_RADIUS_KM`. -/
noncomputable def _AVG_EARTH_RADIUS_KM : ℝ := 6371.0088

/-- `sphere.haversine_km`: the central angle scaled by the mean Earth
radius. -/
noncomputable def haversine_km (pos1 pos2 : LatLon) : ℝ :=
  haversine pos1 pos2 * _AVG_EARTH_RADIUS_KM

end Sphere

/-! ## Concrete inputs used by the witnesses and counterexamples -/

/-- A track point at zero position with the given time and distance. -/
def mkP (ti d : ℚ) : TrackPoint :=
  { lat := 0, lon := 0, bearing := 0, time := ti, distance := d, timeElapsed := ti }

/-- The concrete scenario of §8: five points, 1 km and 100 s apart. -/
def track5 : Track := [mkP 0 0, mkP 100 1, mkP 200 2, mkP 300 3, mkP 400 4]

/-- A valid track on which the reported (rounded) split spans overlap:
start distances 0.0006 km and 0.0022 km, total 0.005 km. -/
def ce3Track : Track := [mkP 0 (6 / 10000), mkP 5 (22 / 10000), mkP 10 (50 / 10000)]

/-- A valid track whose first sample satisfies `distance + 2 = total`:
a candidate under `≤` but not under the source's strict `<`. -/
def tr4 : Track := [mkP 0 0, mkP 100 1, mkP 200 2]

/-- Two samples with equal `timeElapsed` but different distance: the pair
has zero time delta and nonzero distance delta. -/
def tC7 : Track := [mkP 0 0, { mkP 0 1 with time := 0 }]

/-- A small valid track for the Pareto-front witness. -/
def t1 : Track := [mkP 0 0, mkP 10 1, mkP 20 3]

/-- A concrete instance of the geodesy primitives (intersection positions
tagged by the originating latitude) for the crossing-time theorems. -/
def geoCE : Geo ℚ where
  haversine_km := fun _ _ => 0
  path_intersections := fun la _ _ _ => la
  bearing := fun ip _ => if ip = 0 then 0 else 180
  haversine := fun ip _ => if ip = 3 then 2 else 1

/-- A gate at the origin with bearing 0. -/
def gateCE : Gate := { lat := 0, lon := 0, bearing := 0 }

/-- Four points tagged by latitude, with a sign change (gate crossing)
between the second and third-to-last retained rows. -/
def tCE : Track :=
  [{ mkP 0 0 with lat := 0 }, { mkP 10 1 with lat := 1 },
    { mkP 20 2 with lat := 2 }, { mkP 30 3 with lat := 3 }]

/-- A geodesy instance keeping every point far from the gate. -/
def geoFar : Geo ℚ where
  haversine_km := fun _ _ => 5
  path_intersections := fun la _ _ _ => la
  bearing := fun _ _ => 0
  haversine := fun _ _ => 1

/-- A geodesy instance keeping exactly one point of `tCE` close to the
gate (the row with latitude 2). -/
def geoOne : Geo ℚ where
  haversine_km := fun p _ => if p.lat = 2 then 0 else 5
  path_intersections := fun la _ _ _ => la
  bearing := fun _ _ => 0
  haversine := fun _ _ => 1

/-! ## Specification predicates -/

/-- Weak componentwise order on two-column cost rows (minimisation):
the first row is at least as good as the second in both columns. -/
def CostLE (c p : ℚ × ℚ) : Prop := c.1 ≤ p.1 ∧ c.2 ≤ p.2

/-- Mutual incomparability of two indexed cost rows. -/
def Incomp (a b : CostEntry) : Prop := ¬ CostLE a.2 b.2 ∧ ¬ CostLE b.2 a.2

/-- Non-overlap (up to a shared boundary point) of the two candidate
windows starting at positions `p` and `q` of the candidate list of
`find_best_times`. -/
def SepWin (t : Track) (d : ℚ) (p q : ℕ) : Prop :=
  (candD t d).getD p 0 + d ≤ (candD t d).getD q 0 ∨
    (candD t d).getD q 0 + d ≤ (candD t d).getD p 0

/-! ## Theorems -/

theorem sphere_sin_half_sq_symm (x y : ℝ) :
    Real.sin ((x - y) / 2) ^ 2 = Real.sin ((y - x) / 2) ^ 2 := by
  rw [show (x - y) / 2 = -((y - x) / 2) by ring, Real.sin_neg]
  ring

theorem sphere_haversine_symm (A B : Sphere.LatLon) :
    Sphere.haversine A B = Sphere.haversine B A := by
  have ha :
      Real.sin ((Sphere.radians B.latitude - Sphere.radians A.latitude) / 2) ^ 2 +
          Real.cos (Sphere.radians A.latitude) * Real.cos (Sphere.radians B.latitude) *
            Real.sin ((Sphere.radians B.longitude - Sphere.radians A.longitude) / 2) ^ 2 =
        Real.sin ((Sphere.radians A.latitude - Sphere.radians B.latitude) / 2) ^ 2 +
          Real.cos (Sphere.radians B.latitude) * Real.cos (Sphere.radians A.latitude) *
            Real.sin ((Sphere.radians A.longitude - Sphere.radians B.longitude) / 2) ^ 2 := by
    rw [sphere_sin_half_sq_symm, sphere_sin_half_sq_symm
      (Sphere.radians B.longitude) (Sphere.radians A.longitude)]
    ring
  simp only [Sphere.haversine]
  rw [ha]

theorem sphere_haversine_self (A : Sphere.LatLon) : Sphere.haversine A A = 0 := by
  simp only [Sphere.haversine, sub_self, zero_div, Real.sin_zero]
  norm_num [Sphere.arctan2, Real.arctan_zero]

/-- C8: `haversine_km` is symmetric in its two arguments, and the distance
from any position to itself is zero. -/
theorem C8_haversine_symm_and_self_zero :
    (∀ A B : Sphere.LatLon, Sphere.haversine_km A B = Sphere.haversine_km B A) ∧
    (∀ A : Sphere.LatLon, Sphere.haversine_km A A = 0) := by
  constructor
  · intro A B
    unfold Sphere.haversine_km
    rw [sphere_haversine_symm]
  · intro A
    unfold Sphere.haversine_km
    rw [sphere_haversine_self, zero_mul]

theorem costLE_refl (p : ℚ × ℚ) : CostLE p p := ⟨le_refl _, le_refl _⟩

theorem costLE_trans {a b c : ℚ × ℚ} (h1 : CostLE a b) (h2 : CostLE b c) : CostLE a c :=
  ⟨le_trans h1.1 h2.1, le_trans h1.2 h2.2⟩

theorem incomp_symm : Symmetric Incomp := fun _ _ h => ⟨h.2, h.1⟩

theorem paretoKeep_eq_false_iff (cur q : CostEntry) :
    paretoKeep cur q = false ↔ CostLE cur.2 q.2 := by
  simp [paretoKeep, CostLE, not_lt]

theorem paretoKeep_eq_true_not (cur q : CostEntry) (h : paretoKeep cur q = true) :
    ¬ CostLE cur.2 q.2 := by
  intro hle
  rw [← paretoKeep_eq_false_iff] at hle
  simp [h] at hle

theorem paretoSweep_zero (done : List CostEntry) (cur : CostEntry) (rest : List CostEntry) :
    paretoSweep 0 done cur rest = done.filter (paretoKeep cur) ++ [cur] := rfl

theorem paretoSweep_succ_nil {rest : List CostEntry} {cur : CostEntry}
    (fuel : ℕ) (done : List CostEntry) (hf : rest.filter (paretoKeep cur) = []) :
    paretoSweep (fuel + 1) done cur rest = done.filter (paretoKeep cur) ++ [cur] := by
  conv_lhs => rw [paretoSweep]
  rw [hf]

theorem paretoSweep_succ_cons {rest tl : List CostEntry} {cur a : CostEntry}
    (fuel : ℕ) (done : List CostEntry) (hf : rest.filter (paretoKeep cur) = a :: tl) :
    paretoSweep (fuel + 1) done cur rest =
      paretoSweep fuel (done.filter (paretoKeep cur) ++ [cur]) a tl := by
  conv_lhs => rw [paretoSweep]
  rw [hf]

theorem paretoSweep_mem (fuel : ℕ) :
    ∀ (done : List CostEntry) (cur : CostEntry) (rest : List CostEntry) (e : CostEntry),
      e ∈ paretoSweep fuel done cur rest → e ∈ done ∨ e = cur ∨ e ∈ rest := by
  induction fuel with
  | zero =>
    intro done cur rest e he
    rw [paretoSweep_zero] at he
    rcases List.mem_append.1 he with h1 | h1
    · exact Or.inl (List.mem_filter.1 h1).1
    · exact Or.inr (Or.inl (List.mem_singleton.1 h1))
  | succ fuel ih =>
    intro done cur rest e he
    rcases hf : rest.filter (paretoKeep cur) with _ | ⟨a, tl⟩
    · rw [paretoSweep_succ_nil fuel done hf] at he
      rcases List.mem_append.1 he with h1 | h1
      · exact Or.inl (List.mem_filter.1 h1).1
      · exact Or.inr (Or.inl (List.mem_singleton.1 h1))
    · rw [paretoSweep_succ_cons fuel done hf] at he
      rcases ih _ _ _ _ he with h1 | h2 | h3
      · rcases List.mem_append.1 h1 with h4 | h4
        · exact Or.inl (List.mem_filter.1 h4).1
        · exact Or.inr (Or.inl (List.mem_singleton.1 h4))
      · subst h2
        have hm : e ∈ rest.filter (paretoKeep cur) := by
          rw [hf]; exact List.mem_cons_self _ _
        exact Or.inr (Or.inr (List.mem_filter.1 hm).1)
      · have hm : e ∈ rest.filter (paretoKeep cur) := by
          rw [hf]; exact List.mem_cons_of_mem _ h3
        exact Or.inr (Or.inr (List.mem_filter.1 hm).1)

theorem paretoSweep_pairwise (fuel : ℕ) :
    ∀ (done : List CostEntry) (cur : CostEntry) (rest : List CostEntry),
      (∀ q ∈ done, ¬ CostLE q.2 cur.2) →
      (∀ q ∈ done, ∀ r ∈ rest, ¬ CostLE q.2 r.2) →
      List.Pairwise Incomp done →
      List.Pairwise Incomp (paretoSweep fuel done cur rest) := by
  have base : ∀ (done : List CostEntry) (cur : CostEntry),
      (∀ q ∈ done, ¬ CostLE q.2 cur.2) → List.Pairwise Incomp done →
      List.Pairwise Incomp (done.filter (paretoKeep cur) ++ [cur]) := by
    intro done cur h1 h3
    rw [List.pairwise_append]
    refine ⟨h3.sublist (List.filter_sublist _), List.pairwise_singleton _ _, ?_⟩
    intro q hq b hb
    rw [List.mem_singleton] at hb
    rw [hb]
    rcases List.mem_filter.1 hq with ⟨hqd, hqk⟩
    exact ⟨h1 q hqd, paretoKeep_eq_true_not cur q hqk⟩
  induction fuel with
  | zero =>
    intro done cur rest h1 _ h3
    rw [paretoSweep_zero]
    exact base done cur h1 h3
  | succ fuel ih =>
    intro done cur rest h1 h2 h3
    rcases hf : rest.filter (paretoKeep cur) with _ | ⟨a, tl⟩
    · rw [paretoSweep_succ_nil fuel done hf]
      exact base done cur h1 h3
    · rw [paretoSweep_succ_cons fuel done hf]
      have hmem : ∀ r ∈ a :: tl, r ∈ rest ∧ paretoKeep cur r = true := by
        intro r hr
        have : r ∈ rest.filter (paretoKeep cur) := by rw [hf]; exact hr
        exact ⟨(List.mem_filter.1 this).1, (List.mem_filter.1 this).2⟩
      have ha := hmem a (List.mem_cons_self _ _)
      apply ih
      · intro q hq
        rcases List.mem_append.1 hq with h4 | h4
        · rcases List.mem_filter.1 h4 with ⟨hqd, _⟩
          exact h2 q hqd a ha.1
        · rw [List.mem_singleton] at h4
          rw [h4]
          exact paretoKeep_eq_true_not cur a ha.2
      · intro q hq r hr
        have hrtl := hmem r (List.mem_cons_of_mem _ hr)
        rcases List.mem_append.1 hq with h4 | h4
        · rcases List.mem_filter.1 h4 with ⟨hqd, _⟩
          exact h2 q hqd r hrtl.1
        · rw [List.mem_singleton] at h4
          rw [h4]
          exact paretoKeep_eq_true_not cur r hrtl.2
      · exact base done cur h1 h3

theorem paretoSweep_cover (fuel : ℕ) :
    ∀ (done : List CostEntry) (cur : CostEntry) (rest : List CostEntry),
      rest.length ≤ fuel →
      ∀ p, (p ∈ done ∨ p = cur ∨ p ∈ rest) →
        ∃ q ∈ paretoSweep fuel done cur rest, CostLE q.2 p.2 := by
  have base : ∀ (done : List CostEntry) (cur : CostEntry) (p : CostEntry),
      (p ∈ done ∨ p = cur) →
      ∃ q ∈ done.filter (paretoKeep cur) ++ [cur], CostLE q.2 p.2 := by
    intro done cur p hp
    rcases hp with hp | hp
    · rcases hk : paretoKeep cur p with _ | _
      · refine ⟨cur, List.mem_append.2 (Or.inr (List.mem_singleton.2 rfl)), ?_⟩
        exact (paretoKeep_eq_false_iff cur p).1 hk
      · exact ⟨p, List.mem_append.2 (Or.inl (List.mem_filter.2 ⟨hp, hk⟩)), costLE_refl _⟩
    · subst hp
      exact ⟨p, List.mem_append.2 (Or.inr (List.mem_singleton.2 rfl)), costLE_refl _⟩
  induction fuel with
  | zero =>
    intro done cur rest hlen p hp
    rw [paretoSweep_zero]
    rw [Nat.le_zero, List.length_eq_zero] at hlen
    subst hlen
    rcases hp with hp | hp | hp
    · exact base done cur p (Or.inl hp)
    · exact base done cur p (Or.inr hp)
    · exact absurd hp (List.not_mem_nil _)
  | succ fuel ih =>
    intro done cur rest hlen p hp
    rcases hf : rest.filter (paretoKeep cur) with _ | ⟨a, tl⟩
    · rw [paretoSweep_succ_nil fuel done hf]
      rcases hp with hp | hp | hp
      · exact base done cur p (Or.inl hp)
      · exact base done cur p (Or.inr hp)
      · -- p was filtered out of rest, hence dominated by cur
        have hk : paretoKeep cur p = false := by
          rcases hk : paretoKeep cur p with _ | _
          · rfl
          · have : p ∈ rest.filter (paretoKeep cur) := List.mem_filter.2 ⟨hp, hk⟩
            rw [hf] at this
            exact absurd this (List.not_mem_nil _)
        refine ⟨cur, List.mem_append.2 (Or.inr (List.mem_singleton.2 rfl)), ?_⟩
        exact (paretoKeep_eq_false_iff cur p).1 hk
    · rw [paretoSweep_succ_cons fuel done hf]
      have htl : tl.length ≤ fuel := by
        have h1 : (a :: tl).length ≤ rest.length := by
          rw [← hf]; exact List.length_filter_le _ _
        simp only [List.length_cons] at h1
        omega
      have hcur : ∃ q ∈ paretoSweep fuel (done.filter (paretoKeep cur) ++ [cur]) a tl,
          CostLE q.2 cur.2 := by
        apply ih _ _ _ htl
        exact Or.inl (List.mem_append.2 (Or.inr (List.mem_singleton.2 rfl)))
      rcases hp with hp | hp | hp
      · rcases hk : paretoKeep cur p with _ | _
        · -- dominated by cur; chain through cur's own cover
          rcases hcur with ⟨q, hq, hle⟩
          exact ⟨q, hq, costLE_trans hle ((paretoKeep_eq_false_iff cur p).1 hk)⟩
        · exact ih _ _ _ htl p (Or.inl (List.mem_append.2 (Or.inl (List.mem_filter.2 ⟨hp, hk⟩))))
      · subst hp
        exact hcur
      · rcases hk : paretoKeep cur p with _ | _
        · rcases hcur with ⟨q, hq, hle⟩
          exact ⟨q, hq, costLE_trans hle ((paretoKeep_eq_false_iff cur p).1 hk)⟩
        · have : p ∈ rest.filter (paretoKeep cur) := List.mem_filter.2 ⟨hp, hk⟩
          rw [hf] at this
          rcases List.mem_cons.1 this with h5 | h5
          · rw [h5]
            exact ih _ _ _ htl _ (Or.inr (Or.inl rfl))
          · exact ih _ _ _ htl p (Or.inr (Or.inr h5))

theorem mem_enumFrom_char {α : Type _} :
    ∀ (l : List α) (off j : ℕ) (v : α),
      (j, v) ∈ l.enumFrom off ↔ ∃ k, j = off + k ∧ l.get? k = some v := by
  intro l
  induction l with
  | nil => intro off j v; simp [List.enumFrom]
  | cons a as ih =>
    intro off j v
    simp only [List.enumFrom, List.mem_cons, Prod.mk.injEq]
    constructor
    · rintro (⟨hj, hv⟩ | h)
      · exact ⟨0, by omega, by rw [← hv]; rfl⟩
      · rcases (ih (off + 1) j v).1 h with ⟨k, hk1, hk2⟩
        exact ⟨k + 1, by omega, hk2⟩
    · rintro ⟨k, hk1, hk2⟩
      cases k with
      | zero =>
        left
        refine ⟨by omega, ?_⟩
        have h5 : some a = some v := hk2
        exact (Option.some.inj h5).symm
      | succ k =>
        right
        exact (ih (off + 1) j v).2 ⟨k, by omega, hk2⟩

theorem mem_enum_char {α : Type _} (l : List α) (j : ℕ) (v : α) :
    (j, v) ∈ l.enum ↔ l.get? j = some v := by
  rw [List.enum, mem_enumFrom_char]
  constructor
  · rintro ⟨k, hk1, hk2⟩
    rwa [show j = k by omega]
  · intro h
    exact ⟨j, by omega, h⟩

theorem mem_enum_snd_unique {α : Type _} {l : List α} {j : ℕ} {v w : α}
    (h1 : (j, v) ∈ l.enum) (h2 : (j, w) ∈ l.enum) : v = w := by
  rw [mem_enum_char] at h1 h2
  rw [h1] at h2
  exact Option.some.inj h2

theorem mem_iff_mem_enum {α : Type _} {l : List α} {v : α} :
    v ∈ l ↔ ∃ j, (j, v) ∈ l.enum := by
  rw [List.mem_iff_get?]
  constructor
  · rintro ⟨n, hn⟩
    exact ⟨n, (mem_enum_char l n v).2 hn⟩
  · rintro ⟨j, hj⟩
    exact ⟨j, (mem_enum_char l j v).1 hj⟩

theorem enum_map_neg {l : List (ℚ × ℚ)} {i : ℕ} {p : ℚ × ℚ} :
    (i, p) ∈ l.enum ↔ (i, (-p.1, -p.2)) ∈ (l.map (fun r => (-r.1, -r.2))).enum := by
  rw [mem_enum_char, mem_enum_char, List.get?_map]
  constructor
  · intro h
    rw [h]
    rfl
  · intro h
    rcases hq : l.get? i with _ | q
    · rw [hq] at h; exact absurd h (by simp)
    · rw [hq] at h
      simp only [Option.map_some'] at h
      have hq2 := Option.some.inj h
      have h1 : q.1 = p.1 := by
        have := congrArg Prod.fst hq2
        simpa using this
      have h2 : q.2 = p.2 := by
        have := congrArg Prod.snd hq2
        simpa using this
      exact congrArg some (Prod.ext h1 h2)

theorem ipe_unfold_cons {costs : List (ℚ × ℚ)} {c : CostEntry} {rest : List CostEntry}
    (he : costs.enum = c :: rest) :
    is_pareto_efficient costs = (paretoSweep rest.length [] c rest).map Prod.fst := by
  unfold is_pareto_efficient
  rw [he]

theorem ipe_antichain (costs : List (ℚ × ℚ)) (i j : ℕ) (p q : ℚ × ℚ)
    (hip : (i, p) ∈ costs.enum) (hjq : (j, q) ∈ costs.enum)
    (hi : i ∈ is_pareto_efficient costs) (hj : j ∈ is_pareto_efficient costs)
    (hij : i ≠ j) : ¬ CostLE p q := by
  rcases he : costs.enum with _ | ⟨c, rest⟩
  · rw [he] at hip; exact absurd hip (List.not_mem_nil _)
  · rw [ipe_unfold_cons he] at hi hj
    rcases List.mem_map.1 hi with ⟨ei, heim, hei1⟩
    rcases List.mem_map.1 hj with ⟨ej, hejm, hej1⟩
    have pw := paretoSweep_pairwise rest.length [] c rest
      (by intro q hq; exact absurd hq (List.not_mem_nil _))
      (by intro q hq; exact absurd hq (List.not_mem_nil _))
      List.Pairwise.nil
    have hne : ei ≠ ej := by
      intro hcon
      exact hij (by rw [← hei1, ← hej1, hcon])
    have hinc : Incomp ei ej := pw.forall incomp_symm heim hejm hne
    have hmem : ∀ e : CostEntry, e ∈ paretoSweep rest.length [] c rest → e ∈ costs.enum := by
      intro e hme
      rcases paretoSweep_mem rest.length [] c rest e hme with h1 | h1 | h1
      · exact absurd h1 (List.not_mem_nil _)
      · rw [he, h1]; exact List.mem_cons_self _ _
      · rw [he]; exact List.mem_cons_of_mem _ h1
    have hip2 : (i, ei.2) ∈ costs.enum := by
      have := hmem ei heim
      rwa [← hei1]
    have hjq2 : (j, ej.2) ∈ costs.enum := by
      have := hmem ej hejm
      rwa [← hej1]
    have hp : ei.2 = p := mem_enum_snd_unique hip2 hip
    have hq2 : ej.2 = q := mem_enum_snd_unique hjq2 hjq
    rw [← hp, ← hq2]
    exact hinc.1

theorem ipe_cover (costs : List (ℚ × ℚ)) (i : ℕ) (p : ℚ × ℚ)
    (hip : (i, p) ∈ costs.enum) :
    ∃ j q, (j, q) ∈ costs.enum ∧ j ∈ is_pareto_efficient costs ∧ CostLE q p := by
  rcases he : costs.enum with _ | ⟨c, rest⟩
  · rw [he] at hip; exact absurd hip (List.not_mem_nil _)
  · have hip' : (i, p) ∈ c :: rest := by rw [← he]; exact hip
    have hcase : (i, p) ∈ ([] : List CostEntry) ∨ (i, p) = c ∨ (i, p) ∈ rest := by
      rcases List.mem_cons.1 hip' with h1 | h1
      · exact Or.inr (Or.inl h1)
      · exact Or.inr (Or.inr h1)
    rcases paretoSweep_cover rest.length [] c rest le_rfl (i, p) hcase with ⟨e, hem, hle⟩
    have hmem : e ∈ c :: rest := by
      rcases paretoSweep_mem rest.length [] c rest e hem with h1 | h1 | h1
      · exact absurd h1 (List.not_mem_nil _)
      · rw [h1]; exact List.mem_cons_self _ _
      · exact List.mem_cons_of_mem _ h1
    refine ⟨e.1, e.2, hmem, ?_, hle⟩
    rw [ipe_unfold_cons he]
    exact List.mem_map_of_mem _ hem

theorem mem_cpf_iff (t : Track) (x : ℚ × ℚ) :
    x ∈ calc_pareto_front t ↔
      ∃ i, (i, x) ∈ (pairPoints t).enum ∧
        i ∈ is_pareto_efficient ((pairPoints t).map (fun r => (-r.1, -r.2))) := by
  unfold calc_pareto_front
  simp only [List.mem_map, List.mem_filter, decide_eq_true_eq]
  constructor
  · rintro ⟨e, ⟨hem, hei⟩, hee⟩
    refine ⟨e.1, ?_, hei⟩
    rw [← hee]
    exact hem
  · rintro ⟨i, him, hi⟩
    exact ⟨(i, x), ⟨him, hi⟩, rfl⟩

/-- C1: for every valid track, the `(distance_delta, speed)` set returned
by `calc_pareto_front` is an antichain under the componentwise order (no
returned point has both components greater-or-equal to another returned
point's), and every pairwise-interval point excluded from the returned
set is dominated (both components greater-or-equal) by some returned
point. -/
theorem C1_pareto_front_antichain_cover (t : Track) (hv : validTrack t) :
    (∀ x ∈ calc_pareto_front t, ∀ y ∈ calc_pareto_front t, x ≠ y →
        ¬ (y.1 ≤ x.1 ∧ y.2 ≤ x.2)) ∧
    (∀ p ∈ pairPoints t, p ∉ calc_pareto_front t →
        ∃ q ∈ calc_pareto_front t, p.1 ≤ q.1 ∧ p.2 ≤ q.2) := by
  constructor
  · intro x hx y hy hxy
    rcases (mem_cpf_iff t x).1 hx with ⟨i, hix, hi⟩
    rcases (mem_cpf_iff t y).1 hy with ⟨j, hjy, hj⟩
    have hij : i ≠ j := by
      intro hcon
      apply hxy
      exact mem_enum_snd_unique (hcon ▸ hix) hjy
    have hcx : (i, (-x.1, -x.2)) ∈ ((pairPoints t).map (fun r => (-r.1, -r.2))).enum :=
      enum_map_neg.1 hix
    have hcy : (j, (-y.1, -y.2)) ∈ ((pairPoints t).map (fun r => (-r.1, -r.2))).enum :=
      enum_map_neg.1 hjy
    have hnot := ipe_antichain ((pairPoints t).map (fun r => (-r.1, -r.2)))
      i j (-x.1, -x.2) (-y.1, -y.2) hcx hcy hi hj hij
    intro hcon
    apply hnot
    exact ⟨neg_le_neg hcon.1, neg_le_neg hcon.2⟩
  · intro p hp _
    rcases mem_iff_mem_enum.1 hp with ⟨i, hip⟩
    have hcp : (i, (-p.1, -p.2)) ∈ ((pairPoints t).map (fun r => (-r.1, -r.2))).enum :=
      enum_map_neg.1 hip
    rcases ipe_cover ((pairPoints t).map (fun r => (-r.1, -r.2))) i (-p.1, -p.2) hcp with
      ⟨j, cq, hjc, hj, hle⟩
    -- recover the un-negated point at index j
    rcases hq : (pairPoints t).get? j with _ | q
    · rw [mem_enum_char, List.get?_map, hq] at hjc
      exact absurd hjc (by simp)
    · have hjq : (j, q) ∈ (pairPoints t).enum := (mem_enum_char _ _ _).2 hq
      have hcq : (j, (-q.1, -q.2)) ∈ ((pairPoints t).map (fun r => (-r.1, -r.2))).enum :=
        enum_map_neg.1 hjq
      have hqeq : (-q.1, -q.2) = cq := mem_enum_snd_unique hcq hjc
      refine ⟨q, (mem_cpf_iff t q).2 ⟨j, hjq, hj⟩, ?_⟩
      rw [← hqeq] at hle
      rcases hle with ⟨hle1, hle2⟩
      constructor
      · simpa using hle1
      · simpa using hle2

theorem cpfT1eval : calc_pareto_front t1 = [(3, 150), (2, 200)] := by
  norm_num [calc_pareto_front, pairPoints, pairIdx, List.range_succ, List.range', t1, mkP,
    nanToNumDiv, is_pareto_efficient, List.enum, List.enumFrom, paretoSweep, paretoKeep,
    List.filter]

/-- Witness for C1 at the track `t1`: the returned frontier contains
`(3, 150)` and `(2, 200)`, and neither dominates the other. -/
theorem C1_witness :
    ¬ ((((2 : ℚ), (200 : ℚ)).1 ≤ (((3 : ℚ)), (150 : ℚ)).1 ∧
        ((2 : ℚ), (200 : ℚ)).2 ≤ (((3 : ℚ)), (150 : ℚ)).2)) :=
  (C1_pareto_front_antichain_cover t1
      (by refine ⟨by norm_num [t1], ?_, ?_, ?_⟩ <;>
        norm_num [t1, mkP, List.chain'_cons])).1
    (3, 150) (by norm_num [cpfT1eval]) (2, 200) (by norm_num [cpfT1eval])
    (by norm_num)

theorem pairIdx_mem (n i j : ℕ) : (i, j) ∈ pairIdx n ↔ i < j ∧ j < n := by
  unfold pairIdx
  simp only [List.mem_flatMap, List.mem_map, List.mem_range, List.mem_range'_1, Prod.mk.injEq]
  constructor
  · rintro ⟨a, ha, b, ⟨hb1, hb2⟩, heq1, heq2⟩
    omega
  · rintro ⟨hij, hjn⟩
    exact ⟨i, by omega, j, ⟨by omega, by omega⟩, rfl, rfl⟩

/-- C7 (amended): in `calc_pareto_front`, a sample pair with zero time
delta gets speed `0` only when its distance delta is also zero (the `0/0`
NaN case); with nonzero distance delta the recorded speed is
`±1000 · DBL_MAX` (`np.nan_to_num` clamps the infinities to the largest
finite double, it does not zero them). -/
theorem C7_nan_to_num_speed (t : Track) (i j : ℕ) (hij : i < j) (hjn : j < t.length)
    (htd : (t.getD j default).timeElapsed - (t.getD i default).timeElapsed = 0)
    (dd : ℚ) (hdd : dd = (t.getD j default).distance - (t.getD i default).distance) :
    (dd, 1000 * nanToNumDiv dd 0) ∈ pairPoints t ∧
      1000 * nanToNumDiv dd 0 =
        (if dd = 0 then 0 else if 0 < dd then 1000 * FMAXQ else -(1000 * FMAXQ)) := by
  constructor
  · unfold pairPoints
    apply List.mem_map.2
    refine ⟨(i, j), (pairIdx_mem t.length i j).2 ⟨hij, hjn⟩, ?_⟩
    simp only [htd, hdd]
  · unfold nanToNumDiv
    rw [if_pos rfl]
    split_ifs with h1 h2
    · simp
    · rfl
    · ring

/-- Counterexample to C7 as stated: on two samples with equal elapsed
time and distances 0 and 1 km, the single pair has zero time delta but
recorded speed `1000 · DBL_MAX ≠ 0`. -/
theorem C7_counterexample :
    (tC7.getD 1 default).timeElapsed - (tC7.getD 0 default).timeElapsed = 0 ∧
    pairPoints tC7 = [(1, 1000 * FMAXQ)] ∧ (1000 * FMAXQ : ℚ) ≠ 0 := by
  refine ⟨by norm_num [tC7, mkP], ?_, by norm_num [FMAXQ]⟩
  norm_num [pairPoints, pairIdx, List.range_succ, List.range', tC7, mkP, nanToNumDiv]

/-- Witness for the amended C7 at the concrete pair (0, 1) of `tC7`. -/
theorem C7_witness :
    ((1 : ℚ), 1000 * nanToNumDiv 1 0) ∈ pairPoints tC7 ∧
      1000 * nanToNumDiv 1 0 =
        (if (1 : ℚ) = 0 then 0 else if (0 : ℚ) < 1 then 1000 * FMAXQ else -(1000 * FMAXQ)) :=
  C7_nan_to_num_speed tC7 0 1 (by norm_num) (by norm_num [tC7]) (by norm_num [tC7, mkP])
    1 (by norm_num [tC7, mkP])

theorem trackDists_get? (t : Track) (i : ℕ) :
    (trackDists t).get? i = (t.get? i).map (·.distance) := by
  unfold trackDists
  exact List.get?_map _ _ _

/-- C4 (amended): the candidate window start points of `find_best_times`
are exactly the samples whose cumulative distance plus the target
distance is STRICTLY LESS than the track's total distance (the source
uses `<`, not `≤`). -/
theorem C4_candidates_strict (t : Track) (d : ℚ) (i : ℕ) :
    i ∈ candLabels t d ↔
      i < t.length ∧ (t.getD i default).distance + d < totalDistance t := by
  unfold candLabels candSeries totalDistance
  cases t with
  | nil => simp [trackDists]
  | cons p ps =>
    have hne : trackDists (p :: ps) ≠ [] := by simp [trackDists]
    rcases hl : (trackDists (p :: ps)).getLast? with _ | total
    · rw [List.getLast?_eq_getLast _ hne] at hl
      exact absurd hl (by simp)
    · simp only [Option.getD_some]
      constructor
      · intro hi
        rcases List.mem_map.1 hi with ⟨e, hef, he1⟩
        rcases List.mem_filter.1 hef with ⟨hee, hcond⟩
        rw [decide_eq_true_eq] at hcond
        have hee2 : (i, e.2) ∈ (trackDists (p :: ps)).enum := by
          rw [← he1]
          exact hee
        have hch := (mem_enum_char _ _ _).1 hee2
        rw [trackDists_get?] at hch
        rcases hpt : (p :: ps).get? i with _ | pt
        · rw [hpt] at hch; exact absurd hch (by simp)
        · rw [hpt] at hch
          simp only [Option.map_some'] at hch
          have hlen : i < (p :: ps).length := (List.get?_eq_some.1 hpt).1
          have hgd : (p :: ps).getD i default = pt := by
            rw [List.getD_eq_get?, hpt]
            rfl
          refine ⟨hlen, ?_⟩
          rw [hgd]
          have : pt.distance = e.2 := by
            have := Option.some.inj hch
            rw [this]
          rw [this]
          exact hcond
      · rintro ⟨hlen, hlt⟩
        rcases List.get?_eq_get (l := p :: ps) hlen with hpt
        apply List.mem_map.2
        refine ⟨(i, ((p :: ps).get ⟨i, hlen⟩).distance), ?_, rfl⟩
        apply List.mem_filter.2
        constructor
        · apply (mem_enum_char _ _ _).2
          rw [trackDists_get?, hpt]
          rfl
        · rw [decide_eq_true_eq]
          have hgd : (p :: ps).getD i default = (p :: ps).get ⟨i, hlen⟩ := by
            rw [List.getD_eq_get?, hpt]
            rfl
          rw [hgd] at hlt
          exact hlt

/-- Counterexample to C4 as stated: on `tr4` with `d = 2`, sample 0 has
`distance + d = total` (so it satisfies the claimed `≤` bound) yet the
candidate set of the source is empty. -/
theorem C4_counterexample :
    ¬ (0 ∈ candLabels tr4 2 ↔
        0 < tr4.length ∧ (tr4.getD 0 default).distance + 2 ≤ totalDistance tr4) := by
  have h1 : candLabels tr4 2 = [] := by
    norm_num [candLabels, candSeries, trackDists, tr4, mkP, List.enum, List.enumFrom,
      List.filter, List.getLast?]
  have h2 : (tr4.getD 0 default).distance + 2 ≤ totalDistance tr4 := by
    norm_num [tr4, mkP, totalDistance, trackDists, List.getLast?, List.getD]
  intro h
  have hmem := h.2 ⟨by norm_num [tr4], h2⟩
  rw [h1] at hmem
  exact absurd hmem (List.not_mem_nil _)

theorem countLt_char (v : ℚ) :
    ∀ (a : List ℚ), List.Sorted (· ≤ ·) a →
      ∀ (i : ℕ) (h : i < a.length),
        (i < (a.filter (fun x => decide (x < v))).length ↔ a.get ⟨i, h⟩ < v) := by
  intro a
  induction a with
  | nil => intro _ i h; exact absurd h (by simp)
  | cons x xs ih =>
    intro hs i h
    rcases List.sorted_cons.1 hs with ⟨hx, hxs⟩
    have hnone : ¬ x < v → (xs.filter (fun y => decide (y < v))).length = 0 := by
      intro hxv
      rw [List.length_eq_zero]
      rw [List.filter_eq_nil]
      intro y hy
      simp only [decide_eq_true_eq]
      intro hyv
      exact hxv (lt_of_le_of_lt (le_trans (hx y hy) (le_refl _)) hyv)
    cases i with
    | zero =>
      simp only [List.get]
      rcases hxv : decide (x < v) with _ | _
      · rw [decide_eq_false_iff_not] at hxv
        simp only [List.filter_cons, decide_eq_true_eq]
        rw [if_neg (by simpa using hxv)]
        rw [hnone hxv]
        simp [hxv]
      · rw [decide_eq_true_eq] at hxv
        simp only [List.filter_cons]
        rw [if_pos (by simpa using hxv)]
        simp [hxv]
    | succ j =>
      have hj : j < xs.length := by simpa using h
      have := ih hxs j hj
      simp only [List.get]
      rcases hxv : decide (x < v) with _ | _
      · rw [decide_eq_false_iff_not] at hxv
        simp only [List.filter_cons]
        rw [if_neg (by simpa using hxv)]
        rw [hnone hxv]
        constructor
        · intro hcon; omega
        · intro hcon
          have h0 : ¬ xs.get ⟨j, hj⟩ < v := by
            intro hcc
            rw [← this] at hcc
            rw [hnone hxv] at hcc
            omega
          exact absurd hcon h0
      · rw [decide_eq_true_eq] at hxv
        simp only [List.filter_cons]
        rw [if_pos (by simpa using hxv)]
        simp only [List.length_cons]
        rw [← this]
        omega

theorem bisectLeftAux_sorted (a : List ℚ) (v : ℚ) (hs : List.Sorted (· ≤ ·) a) :
    ∀ (fuel lo hi : ℕ), hi - lo ≤ fuel → lo ≤ hi → hi ≤ a.length →
      lo ≤ (a.filter (fun x => decide (x < v))).length →
      (a.filter (fun x => decide (x < v))).length ≤ hi →
      bisectLeftAux a v fuel lo hi = (a.filter (fun x => decide (x < v))).length := by
  intro fuel
  induction fuel with
  | zero =>
    intro lo hi h1 h2 _ h4 h5
    have : lo = hi := by omega
    subst this
    rw [bisectLeftAux]
    omega
  | succ fuel ihf =>
    intro lo hi h1 h2 h3 h4 h5
    rw [bisectLeftAux]
    by_cases hlh : lo < hi
    · rw [if_pos hlh]
      have hmid1 : lo ≤ (lo + hi) / 2 := by omega
      have hmid2 : (lo + hi) / 2 < hi := by omega
      have hmlen : (lo + hi) / 2 < a.length := by omega
      have hgd : a.getD ((lo + hi) / 2) 0 = a.get ⟨(lo + hi) / 2, hmlen⟩ := by
        rw [List.getD_eq_get?, List.get?_eq_get hmlen]
        rfl
      by_cases hcond : a.getD ((lo + hi) / 2) 0 < v
      · rw [if_pos hcond]
        have hcc : (lo + hi) / 2 < (a.filter (fun x => decide (x < v))).length := by
          rw [countLt_char v a hs ((lo + hi) / 2) hmlen]
          rw [← hgd]
          exact hcond
        exact ihf ((lo + hi) / 2 + 1) hi (by omega) (by omega) h3 (by omega) h5
      · rw [if_neg hcond]
        have hcc : (a.filter (fun x => decide (x < v))).length ≤ (lo + hi) / 2 := by
          by_contra hcon
          push_neg at hcon
          rw [countLt_char v a hs ((lo + hi) / 2) hmlen] at hcon
          rw [← hgd] at hcon
          exact hcond hcon
        exact ihf lo ((lo + hi) / 2) (by omega) (by omega) (by omega) h4 hcc
    · rw [if_neg hlh]
      omega

theorem bisectLeft_sorted (a : List ℚ) (v : ℚ) (hs : List.Sorted (· ≤ ·) a) :
    bisectLeft a v = (a.filter (fun x => decide (x < v))).length := by
  unfold bisectLeft
  exact bisectLeftAux_sorted a v hs a.length 0 a.length (by omega) (by omega) (by omega)
    (by omega) (List.length_filter_le _ _)

theorem enumFrom_filter_sorted (d total : ℚ) :
    ∀ (l : List ℚ) (off : ℕ), List.Sorted (· ≤ ·) l →
      (l.enumFrom off).filter (fun e => decide (e.2 + d < total)) =
        (l.takeWhile (fun x => decide (x + d < total))).enumFrom off := by
  intro l
  induction l with
  | nil => intro off _; rfl
  | cons x xs ih =>
    intro off hs
    rcases List.sorted_cons.1 hs with ⟨hx, hxs⟩
    simp only [List.enumFrom, List.takeWhile]
    rcases hp : decide (x + d < total) with _ | _
    · rw [decide_eq_false_iff_not] at hp
      simp only [List.filter_cons, decide_eq_true_eq]
      rw [if_neg (by simpa using hp)]
      rw [List.filter_eq_nil.2]
      · rfl
      · intro e he
        simp only [decide_eq_true_eq]
        intro hcon
        rcases (mem_enumFrom_char xs (off + 1) e.1 e.2).1 (by simpa using he) with ⟨k, _, hk2⟩
        have hmem : e.2 ∈ xs := List.get?_mem hk2
        exact hp (lt_of_le_of_lt (by linarith [hx e.2 hmem]) hcon)
    · rw [decide_eq_true_eq] at hp
      simp only [List.filter_cons, decide_eq_true_eq]
      rw [if_pos (by simpa using hp)]
      rw [ih (off + 1) hxs]
      rfl

theorem lookupLbl_enumFrom (l : List ℚ) :
    ∀ (off j : ℕ), lookupLbl (off + j) (l.enumFrom off) = l.get? j := by
  induction l with
  | nil => intro off j; rfl
  | cons x xs ih =>
    intro off j
    simp only [List.enumFrom, lookupLbl]
    cases j with
    | zero => rw [if_pos (by omega)]; rfl
    | succ k =>
      rw [if_neg (by omega)]
      have : off + (k + 1) = (off + 1) + k := by omega
      rw [this, ih (off + 1) k]
      rfl

theorem enumFrom_map_snd_self {α : Type _} :
    ∀ (l : List α) (off : ℕ), (l.enumFrom off).map Prod.snd = l := by
  intro l
  induction l with
  | nil => intro off; rfl
  | cons x xs ih =>
    intro off
    simp only [List.enumFrom, List.map]
    rw [ih (off + 1)]

theorem validTrack_sorted_dists (t : Track) (hv : validTrack t) :
    List.Sorted (· ≤ ·) (trackDists t) := by
  rcases hv with ⟨_, _, _, hd⟩
  unfold trackDists
  have h1 : List.Chain' (fun a b : ℚ => a ≤ b) (t.map (·.distance)) :=
    (List.chain'_map _).2 hd
  exact List.chain'_iff_pairwise.1 h1

theorem validTrack_total (t : Track) (hv : validTrack t) :
    (trackDists t).getLast? = some (totalDistance t) := by
  rcases hv with ⟨hl, _⟩
  have hne : trackDists t ≠ [] := by
    unfold trackDists
    cases t
    · simp at hl
    · simp
  rw [List.getLast?_eq_getLast _ hne]
  unfold totalDistance
  rw [List.getLast?_eq_getLast _ hne]
  rfl

theorem candSeries_isPref (t : Track) (d : ℚ) (hv : validTrack t) :
    candSeries t d =
      ((trackDists t).takeWhile (fun x => decide (x + d < totalDistance t))).enumFrom 0 := by
  unfold candSeries
  rw [validTrack_total t hv]
  rw [List.enum]
  exact enumFrom_filter_sorted d (totalDistance t) (trackDists t) 0 (validTrack_sorted_dists t hv)

theorem candD_eq_takeWhile (t : Track) (d : ℚ) (hv : validTrack t) :
    candD t d = (trackDists t).takeWhile (fun x => decide (x + d < totalDistance t)) := by
  unfold candD
  rw [candSeries_isPref t d hv]
  exact enumFrom_map_snd_self _ 0

theorem candD_sorted (t : Track) (d : ℚ) (hv : validTrack t) :
    List.Sorted (· ≤ ·) (candD t d) := by
  rw [candD_eq_takeWhile t d hv]
  exact (validTrack_sorted_dists t hv).sublist (List.takeWhile_sublist _)

theorem candE_sorted (t : Track) (d : ℚ) (hv : validTrack t) :
    List.Sorted (· ≤ ·) (candE t d) := by
  unfold candE
  rw [List.Sorted, List.pairwise_map]
  have := candD_sorted t d hv
  rw [List.Sorted] at this
  exact this.imp (by intro a b hab; simpa using hab)

theorem lookupLbl_candSeries (t : Track) (d : ℚ) (hv : validTrack t) (j : ℕ) :
    lookupLbl j (candSeries t d) = (candD t d).get? j := by
  rw [candSeries_isPref t d hv, candD_eq_takeWhile t d hv]
  have := lookupLbl_enumFrom
    ((trackDists t).takeWhile (fun x => decide (x + d < totalDistance t))) 0 j
  simpa using this

theorem candE_getD (t : Track) (d : ℚ) (c : ℕ) (hc : c < (candD t d).length) :
    (candE t d).getD c 0 = (candD t d).getD c 0 + d := by
  unfold candE
  rw [List.getD_eq_get?, List.getD_eq_get?, List.get?_map, List.get?_eq_get hc]
  rfl

theorem candE_length (t : Track) (d : ℚ) : (candE t d).length = (candD t d).length := by
  unfold candE
  exact List.length_map _ _

theorem enumFrom_get? {α : Type _} :
    ∀ (l : List α) (off j : ℕ),
      (l.enumFrom off).get? j = (l.get? j).map (fun a => (off + j, a)) := by
  intro l
  induction l with
  | nil => intro off j; simp [List.enumFrom]
  | cons x xs ih =>
    intro off j
    cases j with
    | zero => simp [List.enumFrom]
    | succ k =>
      simp only [List.enumFrom, List.get?]
      rw [ih (off + 1) k]
      have : off + 1 + k = off + (k + 1) := by omega
      rw [this]

theorem blockRange_length (ub : List Bool) (i0 i1 : ℕ) :
    (blockRange ub i0 i1).length = ub.length := by
  unfold blockRange
  rw [List.length_map, List.enum_length]

theorem blockRange_getD (ub : List Bool) (i0 i1 c : ℕ) (hc : c < ub.length) :
    (blockRange ub i0 i1).getD c false =
      if i0 ≤ c ∧ c < i1 then false else ub.getD c false := by
  unfold blockRange
  rw [List.getD_eq_get?, List.get?_map, List.enum, enumFrom_get?, List.get?_eq_get hc]
  simp only [Option.map_some', Option.getD_some, Nat.zero_add]
  rw [List.getD_eq_get?, List.get?_eq_get hc]
  rfl

theorem sepWin_symm (t : Track) (d : ℚ) (p q : ℕ) (h : SepWin t d p q) : SepWin t d q p :=
  Or.symm h

theorem greedyLoop_zero (d : ℚ) (cand : List (ℕ × ℚ)) (cD cE : List ℚ)
    (ordering : List ℕ) (ub : List Bool) (acc : List ℕ) :
    greedyLoop d cand cD cE ordering 0 ub acc = none := rfl

theorem greedyLoop_done (d : ℚ) (cand : List (ℕ × ℚ)) (cD cE : List ℚ)
    (ordering : List ℕ) (fuel : ℕ) (ub : List Bool) (acc : List ℕ)
    (hany : ub.any id = false) :
    greedyLoop d cand cD cE ordering (fuel + 1) ub acc = some acc.reverse := by
  conv_lhs => rw [greedyLoop]
  rw [if_neg (by rw [hany]; exact Bool.false_ne_true)]

theorem greedyLoop_stuck (d : ℚ) (cand : List (ℕ × ℚ)) (cD cE : List ℚ)
    (ordering : List ℕ) (fuel : ℕ) (ub : List Bool) (acc : List ℕ)
    (hany : ub.any id = true)
    (hf : ordering.filter (fun p => ub.getD p false) = []) :
    greedyLoop d cand cD cE ordering (fuel + 1) ub acc = none := by
  conv_lhs => rw [greedyLoop]
  rw [if_pos hany, hf]

theorem greedyLoop_key_missing (d : ℚ) (cand : List (ℕ × ℚ)) (cD cE : List ℚ)
    (ordering : List ℕ) (fuel : ℕ) (ub : List Bool) (acc : List ℕ) (nb : ℕ) (rest : List ℕ)
    (hany : ub.any id = true)
    (hf : ordering.filter (fun p => ub.getD p false) = nb :: rest)
    (hlk : lookupLbl nb cand = none) :
    greedyLoop d cand cD cE ordering (fuel + 1) ub acc = none := by
  conv_lhs => rw [greedyLoop]
  rw [if_pos hany, hf]
  show (match lookupLbl nb cand with
    | none => none
    | some dv => greedyLoop d cand cD cE ordering fuel
        (blockRange ub (bisectLeft cE dv) (bisectLeft cD (dv + d))) (nb :: acc)) =
      (none : Option (List ℕ))
  rw [hlk]

theorem greedyLoop_step (d : ℚ) (cand : List (ℕ × ℚ)) (cD cE : List ℚ)
    (ordering : List ℕ) (fuel : ℕ) (ub : List Bool) (acc : List ℕ) (nb : ℕ) (rest : List ℕ)
    (dv : ℚ) (hany : ub.any id = true)
    (hf : ordering.filter (fun p => ub.getD p false) = nb :: rest)
    (hlk : lookupLbl nb cand = some dv) :
    greedyLoop d cand cD cE ordering (fuel + 1) ub acc =
      greedyLoop d cand cD cE ordering fuel
        (blockRange ub (bisectLeft cE dv) (bisectLeft cD (dv + d))) (nb :: acc) := by
  conv_lhs => rw [greedyLoop]
  rw [if_pos hany, hf]
  show (match lookupLbl nb cand with
    | none => none
    | some dv₀ => greedyLoop d cand cD cE ordering fuel
        (blockRange ub (bisectLeft cE dv₀) (bisectLeft cD (dv₀ + d))) (nb :: acc)) =
      greedyLoop d cand cD cE ordering fuel
        (blockRange ub (bisectLeft cE dv) (bisectLeft cD (dv + d))) (nb :: acc)
  rw [hlk]

theorem greedyLoop_sep (t : Track) (d : ℚ) (hv : validTrack t) (hd : 0 < d) :
    ∀ (fuel : ℕ) (ub : List Bool) (acc best : List ℕ),
      ub.length = (candD t d).length →
      (∀ p ∈ acc, ∀ c : ℕ, c < ub.length → ub.getD c false = true → SepWin t d p c) →
      List.Pairwise (SepWin t d) acc →
      greedyLoop d (candSeries t d) (candD t d) (candE t d) (bestOrdering t d) fuel ub acc =
        some best →
      List.Pairwise (SepWin t d) best := by
  intro fuel
  induction fuel with
  | zero =>
    intro ub acc best _ _ _ hloop
    rw [greedyLoop_zero] at hloop
    exact absurd hloop (by simp)
  | succ fuel ih =>
    intro ub acc best hlen hinv hpw hloop
    by_cases hany : ub.any id
    · rcases hf : (bestOrdering t d).filter (fun p => ub.getD p false) with _ | ⟨nb, rest⟩
      · rw [greedyLoop_stuck _ _ _ _ _ _ _ _ hany hf] at hloop
        exact absurd hloop (by simp)
      · have hnbm : nb ∈ (bestOrdering t d).filter (fun p => ub.getD p false) := by
          rw [hf]
          exact List.mem_cons_self _ _
        have hnbub : ub.getD nb false = true := (List.mem_filter.1 hnbm).2
        have hnblt : nb < ub.length := by
          by_contra hcon
          push_neg at hcon
          rw [List.getD_eq_default _ _ hcon] at hnbub
          exact absurd hnbub (by simp)
        have hnbd : nb < (candD t d).length := by omega
        rcases hlk : lookupLbl nb (candSeries t d) with _ | dv
        · rw [greedyLoop_key_missing _ _ _ _ _ _ _ _ _ _ hany hf hlk] at hloop
          exact absurd hloop (by simp)
        · rw [greedyLoop_step _ _ _ _ _ _ _ _ _ _ _ hany hf hlk] at hloop
          have hdv : dv = (candD t d).getD nb 0 := by
            rw [lookupLbl_candSeries t d hv nb, List.get?_eq_get hnbd] at hlk
            have := Option.some.inj hlk
            rw [← this, List.getD_eq_get?, List.get?_eq_get hnbd]
            rfl
          have hcDs := candD_sorted t d hv
          have hcEs := candE_sorted t d hv
          have hcElen : (candE t d).length = ub.length := by
            rw [candE_length]; omega
          -- characterisation of the two blocking bounds
          have hi0 : ∀ c : ℕ, c < ub.length →
              (c < bisectLeft (candE t d) dv ↔ (candD t d).getD c 0 + d < dv) := by
            intro c hc
            have hcE : c < (candE t d).length := by omega
            rw [bisectLeft_sorted _ _ hcEs]
            rw [countLt_char dv (candE t d) hcEs c hcE]
            have hg : (candE t d).get ⟨c, hcE⟩ = (candE t d).getD c 0 := by
              rw [List.getD_eq_get?, List.get?_eq_get hcE]
              rfl
            rw [hg, candE_getD t d c (by omega)]
          have hi1 : ∀ c : ℕ, c < ub.length →
              (c < bisectLeft (candD t d) (dv + d) ↔ (candD t d).getD c 0 < dv + d) := by
            intro c hc
            have hcD : c < (candD t d).length := by omega
            rw [bisectLeft_sorted _ _ hcDs]
            rw [countLt_char (dv + d) (candD t d) hcDs c hcD]
            have hg : (candD t d).get ⟨c, hcD⟩ = (candD t d).getD c 0 := by
              rw [List.getD_eq_get?, List.get?_eq_get hcD]
              rfl
            rw [hg]
          apply ih (blockRange ub (bisectLeft (candE t d) dv) (bisectLeft (candD t d) (dv + d)))
            (nb :: acc) best
          · rw [blockRange_length]; omega
          · intro p hp c hc hub
            rw [blockRange_length] at hc
            rw [blockRange_getD _ _ _ _ hc] at hub
            by_cases hrange : bisectLeft (candE t d) dv ≤ c ∧ c < bisectLeft (candD t d) (dv + d)
            · rw [if_pos hrange] at hub
              exact absurd hub (by simp)
            · rw [if_neg hrange] at hub
              rcases List.mem_cons.1 hp with hpeq | hpacc
              · -- p = nb: c survived the blocking, so it is separated from nb
                rw [hpeq]
                push_neg at hrange
                by_cases hc0 : c < bisectLeft (candE t d) dv
                · have := (hi0 c hc).1 hc0
                  right
                  rw [hdv] at this
                  exact le_of_lt this
                · have hge : bisectLeft (candD t d) (dv + d) ≤ c := hrange (by omega)
                  have := (hi1 c hc).2
                  left
                  rw [hdv] at *
                  by_contra hcon
                  push_neg at hcon
                  exact absurd ((hi1 c hc).2 (by rw [← hdv]; linarith)) (by omega)
              · exact hinv p hpacc c hc hub
          · rw [List.pairwise_cons]
            refine ⟨?_, hpw⟩
            intro p hp
            exact sepWin_symm t d p nb (hinv p hp nb hnblt hnbub)
          · exact hloop
    · rw [greedyLoop_done _ _ _ _ _ _ _ _ (by simpa using hany)] at hloop
      have hbest : best = acc.reverse := (Option.some.inj hloop).symm
      rw [hbest, List.pairwise_reverse]
      exact hpw.imp (fun h => sepWin_symm t d _ _ h)

/-- C3 (amended): for any valid track and target distance `d > 0`, the
UNROUNDED start distances of the windows selected by `find_best_times`
have pairwise non-overlapping spans `[start, start + d]` (touching at a
boundary point allowed).  The start distances REPORTED in the returned
table are rounded to three decimals, so the reported spans can overlap by
up to `0.001` (see the counterexample). -/
theorem C3_selected_windows_disjoint (t : Track) (d : ℚ) (hv : validTrack t) (hd : 0 < d)
    (best : List ℕ) (hb : bestSelection t d = some best) :
    List.Pairwise (SepWin t d) best := by
  unfold bestSelection at hb
  rcases hl : (trackDists t).getLast? with _ | total
  · rw [hl] at hb
    exact absurd hb (by simp)
  · rw [hl] at hb
    apply greedyLoop_sep t d hv hd ((candSeries t d).length + 1)
      (List.replicate (candSeries t d).length true) [] best
    · rw [List.length_replicate]
      unfold candD
      rw [List.length_map]
    · intro p hp
      exact absurd hp (List.not_mem_nil _)
    · exact List.Pairwise.nil
    · exact hb

theorem bestTimesCe3Eval : findBestTimes ce3Track (15 / 10000) =
    some [{ start := 1/500, time := 75/28, split := 75/28 / (15/10000) / 2 },
          { start := 1/1000, time := 75/16, split := 75/16 / (15/10000) / 2 }] := by
  norm_num [findBestTimes, bestSelection, candSeries, trackDists, ce3Track, mkP,
    List.enum, List.enumFrom, List.filter, candD, candE, bestOrdering, distTimesL,
    teList, npInterp, npInterpGo, argsortQ, insertArg, List.range_succ,
    greedyLoop, lookupLbl, bisectLeft, bisectLeftAux, blockRange, List.replicate,
    assembleRecs, round3, roundHalfEven, Int.fract, round_eq]

/-- Counterexample to C3 as stated: on the valid track `ce3Track` with
`d = 0.0015`, `find_best_times` returns two records whose reported
(3-decimal-rounded) start distances are `0.002` and `0.001`; their spans
`[0.002, 0.0035]` and `[0.001, 0.0025]` overlap in more than a boundary
point. -/
theorem C3_counterexample :
    validTrack ce3Track ∧ (0 : ℚ) < 15 / 10000 ∧
    (∃ r1 r2,
      findBestTimes ce3Track (15 / 10000) = some [r1, r2] ∧
      ¬ (r1.start + 15 / 10000 ≤ r2.start ∨ r2.start + 15 / 10000 ≤ r1.start)) := by
  refine ⟨?_, by norm_num, ?_⟩
  · refine ⟨by norm_num [ce3Track], ?_, ?_, ?_⟩ <;>
      norm_num [ce3Track, mkP, List.chain'_cons]
  · refine ⟨_, _, bestTimesCe3Eval, ?_⟩
    norm_num

theorem bestSelCe3Eval : bestSelection ce3Track (15 / 10000) = some [1, 0] := by
  norm_num [bestSelection, candSeries, trackDists, ce3Track, mkP,
    List.enum, List.enumFrom, List.filter, candD, candE, bestOrdering, distTimesL,
    teList, npInterp, npInterpGo, argsortQ, insertArg, List.range_succ,
    greedyLoop, lookupLbl, bisectLeft, bisectLeftAux, blockRange, List.replicate]

/-- Witness for the amended C3 at `ce3Track`: the two selected windows
(unrounded starts 0.0022 and 0.0006) have non-overlapping spans. -/
theorem C3_witness : List.Pairwise (SepWin ce3Track (15 / 10000)) [1, 0] :=
  C3_selected_windows_disjoint ce3Track (15 / 10000)
    (by refine ⟨by norm_num [ce3Track], ?_, ?_, ?_⟩ <;>
      norm_num [ce3Track, mkP, List.chain'_cons])
    (by norm_num) [1, 0] bestSelCe3Eval

/-- C10: in the greedy selection of `find_best_times`, blocking is
asymmetric at window boundaries.  After the candidate at position `s` is
selected, the blocking step clears the flag of every candidate `c` whose
window END distance equals the selected window's START distance, while a
candidate whose window START distance equals the selected window's END
distance keeps its flag unchanged. -/
theorem C10_blocking_asymmetric (t : Track) (d : ℚ) (hv : validTrack t) (hd : 0 < d)
    (s c : ℕ) (ub : List Bool) (hub : ub.length = (candD t d).length)
    (hsl : s < (candD t d).length) (hcl : c < (candD t d).length) :
    ((candE t d).getD c 0 = (candD t d).getD s 0 →
      (blockRange ub (bisectLeft (candE t d) ((candD t d).getD s 0))
          (bisectLeft (candD t d) ((candD t d).getD s 0 + d))).getD c false = false) ∧
    ((candD t d).getD c 0 = (candD t d).getD s 0 + d →
      (blockRange ub (bisectLeft (candE t d) ((candD t d).getD s 0))
          (bisectLeft (candD t d) ((candD t d).getD s 0 + d))).getD c false =
        ub.getD c false) := by
  have hcDs := candD_sorted t d hv
  have hcEs := candE_sorted t d hv
  have hcE : c < (candE t d).length := by rw [candE_length]; omega
  have hcub : c < ub.length := by omega
  have hgE : (candE t d).get ⟨c, hcE⟩ = (candE t d).getD c 0 := by
    rw [List.getD_eq_get?, List.get?_eq_get hcE]
    rfl
  have hgD : (candD t d).get ⟨c, hcl⟩ = (candD t d).getD c 0 := by
    rw [List.getD_eq_get?, List.get?_eq_get hcl]
    rfl
  constructor
  · intro hend
    rw [blockRange_getD _ _ _ _ hcub]
    rw [if_pos ?_]
    constructor
    · -- c is not before i0: its end is not strictly below the selected start
      rw [bisectLeft_sorted _ _ hcEs]
      by_contra hcon
      push_neg at hcon
      have := (countLt_char ((candD t d).getD s 0) (candE t d) hcEs c hcE).1 hcon
      rw [hgE, hend] at this
      exact absurd this (by simp)
    · -- c is before i1: its start is strictly below the selected end
      rw [bisectLeft_sorted _ _ hcDs]
      rw [countLt_char ((candD t d).getD s 0 + d) (candD t d) hcDs c hcl]
      rw [hgD]
      have : (candD t d).getD c 0 + d = (candD t d).getD s 0 := by
        rw [← candE_getD t d c hcl]
        exact hend
      linarith
  · intro hstart
    rw [blockRange_getD _ _ _ _ hcub]
    rw [if_neg ?_]
    intro ⟨_, h2⟩
    rw [bisectLeft_sorted _ _ hcDs] at h2
    rw [countLt_char ((candD t d).getD s 0 + d) (candD t d) hcDs c hcl] at h2
    rw [hgD, hstart] at h2
    exact absurd h2 (by simp)

/-- Witness for C10 on `track5` with `d = 1`: after selecting the window
starting at 1 km (candidate position 1), the candidate ending at 1 km
(position 0) is blocked and the candidate starting at 2 km (position 2)
stays selectable. -/
theorem C10_witness :
    (blockRange [true, true, true] (bisectLeft (candE track5 1) ((candD track5 1).getD 1 0))
        (bisectLeft (candD track5 1) ((candD track5 1).getD 1 0 + 1))).getD 0 false = false ∧
    (blockRange [true, true, true] (bisectLeft (candE track5 1) ((candD track5 1).getD 1 0))
        (bisectLeft (candD track5 1) ((candD track5 1).getD 1 0 + 1))).getD 2 false =
      ([true, true, true] : List Bool).getD 2 false := by
  have hv : validTrack track5 := by
    refine ⟨by norm_num [track5], ?_, ?_, ?_⟩ <;>
      norm_num [track5, mkP, List.chain'_cons]
  have hD : candD track5 1 = [0, 1, 2] := by
    norm_num [candD, candSeries, trackDists, track5, mkP, List.enum, List.enumFrom,
      List.filter, List.getLast?]
  constructor
  · exact (C10_blocking_asymmetric track5 1 hv (by norm_num) 1 0 [true, true, true]
      (by rw [hD]; rfl) (by rw [hD]; norm_num) (by rw [hD]; norm_num)).1
      (by norm_num [candE, hD, List.getD])
  · exact (C10_blocking_asymmetric track5 1 hv (by norm_num) 1 2 [true, true, true]
      (by rw [hD]; rfl) (by rw [hD]; norm_num) (by rw [hD]; norm_num)).2
      (by norm_num [hD, List.getD])

/-- C5: degenerate inputs yield empty results, not errors: a gate with no
track point within the proximity threshold, or with exactly one retained
point, produces an empty crossing set; a target distance for which no
candidate window fits produces an empty split table. -/
theorem C5_empty_results :
    (∀ {I : Type} (geo : Geo I) (positions : Track) (gate : Gate) (thresh : ℚ),
      (∀ p ∈ positions, ¬ (geo.haversine_km p gate < thresh)) →
      findCrossingTimes geo positions gate thresh = some []) ∧
    (∀ {I : Type} (geo : Geo I) (positions : Track) (gate : Gate) (thresh : ℚ),
      (closeList geo positions gate thresh).length = 1 →
      findCrossingTimes geo positions gate thresh = some []) ∧
    (∀ (t : Track) (d : ℚ), validTrack t →
      (∀ p ∈ t, ¬ (p.distance + d < totalDistance t)) →
      findBestTimes t d = some []) := by
  refine ⟨?_, ?_, ?_⟩
  · intro I geo positions gate thresh hfar
    have hcl : closeList geo positions gate thresh = [] := by
      unfold closeList
      rw [List.filter_eq_nil]
      intro p hp
      simpa using hfar p hp
    unfold findCrossingTimes sgnsList intersList closeOverride setBearingAll copyTrack
    rw [hcl]
    rfl
  · intro I geo positions gate thresh hone
    have hlen : (sgnsList geo positions gate thresh).length = 1 := by
      unfold sgnsList intersList closeOverride setBearingAll copyTrack
      simp only [List.length_map]
      exact hone
    rcases List.length_eq_one.1 hlen with ⟨z, hz⟩
    have hcross : crossingIdx geo positions gate thresh = [] := by
      unfold crossingIdx
      rw [hz]
      rfl
    unfold findCrossingTimes
    rw [hz, hcross]
    rfl
  · intro t d hv hno
    have hcand : candSeries t d = [] := by
      unfold candSeries
      rw [validTrack_total t hv]
      rw [List.filter_eq_nil]
      intro e he
      have he2 : (e.1, e.2) ∈ (trackDists t).enum := he
      have hk := (mem_enum_char _ _ _).1 he2
      have hmem : e.2 ∈ trackDists t := List.get?_mem hk
      rcases List.mem_map.1 hmem with ⟨p, hp, hpd⟩
      simp only [decide_eq_true_eq]
      rw [← hpd]
      exact hno p hp
    have hcD : candD t d = [] := by unfold candD; rw [hcand]; rfl
    have hcE : candE t d = [] := by unfold candE; rw [hcD]; rfl
    have hbs : bestSelection t d = some [] := by
      unfold bestSelection
      rw [validTrack_total t hv]
      show greedyLoop d (candSeries t d) (candD t d) (candE t d) (bestOrdering t d)
        ((candSeries t d).length + 1) (List.replicate (candSeries t d).length true) [] =
          some []
      rw [hcand, hcD, hcE]
      simp only [List.length_nil, List.replicate_zero]
      exact greedyLoop_done _ [] [] [] (bestOrdering t d) 0 [] [] rfl
    unfold findBestTimes
    rw [hbs]
    show assembleRecs t d [] = some []
    rfl

/-- Witness for C5: all three degenerate cases at concrete inputs. -/
theorem C5_witness :
    findCrossingTimes geoFar tCE gateCE (15 / 100) = some [] ∧
    findCrossingTimes geoOne tCE gateCE (15 / 100) = some [] ∧
    findBestTimes tr4 10 = some [] :=
  ⟨C5_empty_results.1 geoFar tCE gateCE (15 / 100)
    (by intro p hp; norm_num [geoFar]),
   C5_empty_results.2.1 geoOne tCE gateCE (15 / 100)
    (by norm_num [closeList, tCE, geoOne, mkP, List.filter]),
   C5_empty_results.2.2 tr4 10
    (by refine ⟨by norm_num [tr4], ?_, ?_, ?_⟩ <;>
      norm_num [tr4, mkP, List.chain'_cons])
    (by norm_num [tr4, mkP, totalDistance, trackDists, List.getLast?])⟩

theorem assembleRecs_cons_eq (t : Track) (d : ℚ) (p : ℕ) (ps : List ℕ)
    {tv dv : ℚ} {rest : List SplitRec}
    (h1 : lookupLbl p (distTimesL t d) = some tv)
    (h2 : lookupLbl p (candSeries t d) = some dv)
    (h3 : assembleRecs t d ps = some rest) :
    assembleRecs t d (p :: ps) =
      some ({ start := round3 dv, time := tv, split := tv / d / 2 } :: rest) := by
  conv_lhs => rw [assembleRecs]
  rw [h1, h2, h3]

theorem assembleRecs_none1 (t : Track) (d : ℚ) (p : ℕ) (ps : List ℕ)
    (h1 : lookupLbl p (distTimesL t d) = none) :
    assembleRecs t d (p :: ps) = none := by
  conv_lhs => rw [assembleRecs]
  rw [h1]

theorem assembleRecs_none2 (t : Track) (d : ℚ) (p : ℕ) (ps : List ℕ) {tv : ℚ}
    (h1 : lookupLbl p (distTimesL t d) = some tv)
    (h2 : lookupLbl p (candSeries t d) = none) :
    assembleRecs t d (p :: ps) = none := by
  conv_lhs => rw [assembleRecs]
  rw [h1, h2]

theorem assembleRecs_none3 (t : Track) (d : ℚ) (p : ℕ) (ps : List ℕ) {tv dv : ℚ}
    (h1 : lookupLbl p (distTimesL t d) = some tv)
    (h2 : lookupLbl p (candSeries t d) = some dv)
    (h3 : assembleRecs t d ps = none) :
    assembleRecs t d (p :: ps) = none := by
  conv_lhs => rw [assembleRecs]
  rw [h1, h2, h3]

theorem assembleRecs_split (t : Track) (d : ℚ) :
    ∀ (best : List ℕ) (recs : List SplitRec),
      assembleRecs t d best = some recs → ∀ r ∈ recs, r.split = r.time / d / 2 := by
  intro best
  induction best with
  | nil =>
    intro recs h r hr
    have hr0 : recs = [] := (Option.some.inj h).symm
    rw [hr0] at hr
    exact absurd hr (List.not_mem_nil _)
  | cons p ps ih =>
    intro recs h r hr
    rcases h1 : lookupLbl p (distTimesL t d) with _ | tv
    · rw [assembleRecs_none1 t d p ps h1] at h
      exact absurd h (by simp)
    · rcases h2 : lookupLbl p (candSeries t d) with _ | dv
      · rw [assembleRecs_none2 t d p ps h1 h2] at h
        exact absurd h (by simp)
      · rcases h3 : assembleRecs t d ps with _ | rest
        · rw [assembleRecs_none3 t d p ps h1 h2 h3] at h
          exact absurd h (by simp)
        · rw [assembleRecs_cons_eq t d p ps h1 h2 h3] at h
          have hrecs := (Option.some.inj h).symm
          rw [hrecs] at hr
          rcases List.mem_cons.1 hr with hre | hre
          · rw [hre]
          · exact ih rest h3 r hre

theorem natOfNatOne : (@OfNat.ofNat ℕ 1 One.toOfNat1) = 1 := rfl

theorem natOfNatZero : (@OfNat.ofNat ℕ 0 Zero.toOfNat0) = 0 := rfl

theorem track5Dists : trackDists track5 = [0, 1, 2, 3, 4] := by
  norm_num [trackDists, track5, mkP]

theorem track5Te : teList track5 = [0, 100, 200, 300, 400] := by
  norm_num [teList, track5, mkP]

theorem track5Last : (trackDists track5).getLast? = some 4 := by
  rw [track5Dists]
  rfl

theorem track5Cand : candSeries track5 2 = [(0, (0 : ℚ)), (1, 1)] := by
  unfold candSeries
  rw [track5Last, track5Dists]
  norm_num [List.enum, List.enumFrom, List.filter]

theorem track5CandD : candD track5 2 = [0, 1] := by
  unfold candD
  rw [track5Cand]
  rfl

theorem track5CandE : candE track5 2 = [2, 3] := by
  unfold candE
  rw [track5CandD]
  norm_num

theorem track5DistTimes : distTimesL track5 2 = [(0, 200), (1, 200)] := by
  unfold distTimesL candSeries
  rw [track5Last, track5Dists, track5Te]
  norm_num [List.enum, List.enumFrom, List.filter, npInterp, npInterpGo,
    List.zip, List.zipWith]
  show (300 : ℚ) - 100 = 200
  norm_num

theorem track5Ord : bestOrdering track5 2 = [0, 1] := by
  unfold bestOrdering
  rw [track5DistTimes]
  norm_num [argsortQ, insertArg, List.range_succ]

theorem bestSelTrack5Eval : bestSelection track5 2 = some [0] := by
  unfold bestSelection
  rw [track5Last]
  show greedyLoop 2 (candSeries track5 2) (candD track5 2) (candE track5 2)
      (bestOrdering track5 2) ((candSeries track5 2).length + 1)
      (List.replicate (candSeries track5 2).length true) [] = some [0]
  rw [track5Cand, track5CandD, track5CandE, track5Ord]
  norm_num [greedyLoop, lookupLbl, bisectLeft, bisectLeftAux, blockRange, List.replicate]
  intro x hx hge
  have hch := (mem_enum_char _ _ _).1 hx
  have hlt : x < 2 := by
    by_contra hcon
    push_neg at hcon
    rw [List.get?_eq_none.2 (by simpa using hcon)] at hch
    exact absurd hch (by simp)
  omega

theorem bestTimesTrack5Eval : findBestTimes track5 2 =
    some [{ start := 0, time := 200, split := 50 }] := by
  have h1 : lookupLbl 0 (distTimesL track5 2) = some 200 := by
    rw [track5DistTimes]
    rfl
  have h2 : lookupLbl 0 (candSeries track5 2) = some 0 := by
    rw [track5Cand]
    rfl
  have hrecs : assembleRecs track5 2 [0] =
      some [{ start := 0, time := 200, split := 50 }] := by
    rw [assembleRecs_cons_eq track5 2 0 [] h1 h2 rfl]
    norm_num [round3, roundHalfEven, Int.fract, round_eq]
  unfold findBestTimes
  rw [bestSelTrack5Eval]
  exact hrecs

/-- C6: every returned split record has pace `time / d / 2`; on the
concrete §8 scenario (five points 1 km and 100 s apart, target 2 km) the
single (hence fastest) returned split has elapsed time 200 s and pace
50 s per half-unit. -/
theorem C6_split_pace :
    (∀ (t : Track) (d : ℚ) (recs : List SplitRec), findBestTimes t d = some recs →
      ∀ r ∈ recs, r.split = r.time / d / 2) ∧
    findBestTimes track5 2 = some [{ start := 0, time := 200, split := 50 }] := by
  constructor
  · intro t d recs h r hr
    unfold findBestTimes at h
    rcases hbs : bestSelection t d with _ | best
    · rw [hbs] at h
      exact absurd h (by simp)
    · rw [hbs] at h
      exact assembleRecs_split t d best recs h r hr
  · exact bestTimesTrack5Eval

/-- Witness for C6 at the §8 scenario: the returned record's pace equals
its elapsed time divided by the target distance divided by 2. -/
theorem C6_witness :
    ({ start := 0, time := 200, split := 50 } : SplitRec).split =
      ({ start := 0, time := 200, split := 50 } : SplitRec).time / 2 / 2 :=
  C6_split_pace.1 track5 2 [{ start := 0, time := 200, split := 50 }]
    bestTimesTrack5Eval { start := 0, time := 200, split := 50 }
    (List.mem_singleton.2 rfl)

/-- C9: `find_crossing_times` never mutates the input track: the caller's
`positions` variable is unchanged by the call, because the bearing
override is applied to the `.copy()` of the filtered frame
(`closeOverride`), never to the input. -/
theorem C9_no_track_mutation :
    ∀ {I : Type} (geo : Geo I) (positions : Track) (gate : Gate) (thresh : ℚ),
      (findCrossingFull geo positions gate thresh).2 = positions ∧
      (findCrossingFull geo positions gate thresh).1 =
        findCrossingTimes geo positions gate thresh ∧
      closeOverride geo positions gate thresh =
        setBearingAll (gate.bearing + 90) (copyTrack (closeList geo positions gate thresh)) :=
  fun _ _ _ _ => ⟨rfl, rfl, rfl⟩

theorem crossingIdx_of_sgns_nil {I : Type} (geo : Geo I) (positions : Track) (gate : Gate)
    (thresh : ℚ) (h : sgnsList geo positions gate thresh = []) :
    crossingIdx geo positions gate thresh = [] := by
  unfold crossingIdx
  rw [h]
  rfl

/-- C2 (amended): every crossing returned by `find_crossing_times` is
interpolated between the ORIGINAL track rows at positions `i` and `i+1`
(where `i` indexes the retained/filtered frame), with weight
`w = d_i / (d_i + d_{i+1} + d_{i+2})`: pandas label slicing
`intersections.loc[i:i+2]` is inclusive, so up to THREE intersection
distances enter the weight's denominator (two at the penultimate index,
as the claim stated).  The returned distance is additionally rounded to
three decimals. -/
theorem C2_crossing_formula {I : Type} (geo : Geo I) (positions : Track) (gate : Gate)
    (thresh : ℚ) (res : List (ℚ × ℚ))
    (hres : findCrossingTimes geo positions gate thresh = some res) :
    (∀ i ∈ crossingIdx geo positions gate thresh, i + 1 < positions.length) ∧
    res = (crossingIdx geo positions gate thresh).map (fun i =>
      (round3 ((positions.getD i default).distance +
          ((positions.getD (i + 1) default).distance - (positions.getD i default).distance) *
            weightAt (havsList geo positions gate thresh) i),
        (positions.getD i default).time +
          ((positions.getD (i + 1) default).time - (positions.getD i default).time) *
            weightAt (havsList geo positions gate thresh) i)) ∧
    (∀ (hs : List ℚ) (i : ℕ), i + 2 < hs.length →
      weightAt hs i =
        hs.getD i 0 / (hs.getD i 0 + (hs.getD (i + 1) 0 + hs.getD (i + 2) 0))) := by
  have hweight : ∀ (hs : List ℚ) (i : ℕ), i + 2 < hs.length →
      weightAt hs i =
        hs.getD i 0 / (hs.getD i 0 + (hs.getD (i + 1) 0 + hs.getD (i + 2) 0)) := by
    intro hs i h
    have h0 : i < hs.length := by omega
    have h1 : i + 1 < hs.length := by omega
    have h2 : i + 2 < hs.length := h
    have hd0 : hs.drop i = hs.getD i 0 :: hs.drop (i + 1) := by
      rw [List.getD_eq_getElem _ _ h0]
      exact List.drop_eq_getElem_cons h0
    have hd1 : hs.drop (i + 1) = hs.getD (i + 1) 0 :: hs.drop (i + 2) := by
      rw [List.getD_eq_getElem _ _ h1]
      exact List.drop_eq_getElem_cons h1
    have hd2 : hs.drop (i + 2) = hs.getD (i + 2) 0 :: hs.drop (i + 3) := by
      rw [List.getD_eq_getElem _ _ h2]
      exact List.drop_eq_getElem_cons h2
    unfold weightAt
    rw [hd0, hd1, hd2]
    simp only [List.take_succ_cons, List.take_zero, List.sum_cons, List.sum_nil, add_zero]
  refine ⟨?_, ?_, hweight⟩
  · intro i hi
    unfold findCrossingTimes at hres
    by_cases hemp : (sgnsList geo positions gate thresh).isEmpty = true
    · rw [if_pos hemp] at hres
      rw [crossingIdx_of_sgns_nil geo positions gate thresh
        (List.isEmpty_iff.1 hemp)] at hi
      exact absurd hi (List.not_mem_nil _)
    · rw [if_neg hemp] at hres
      by_cases hguard : ((crossingIdx geo positions gate thresh).any
          (fun i => decide (positions.length ≤ i + 1))) = true
      · rw [if_pos hguard] at hres
        exact absurd hres (by simp)
      · have := List.any_eq_false.1 (Bool.not_eq_true _ ▸ hguard) i hi
        simp only [decide_eq_true_eq] at this
        omega
  · unfold findCrossingTimes at hres
    by_cases hemp : (sgnsList geo positions gate thresh).isEmpty = true
    · rw [if_pos hemp] at hres
      rw [crossingIdx_of_sgns_nil geo positions gate thresh (List.isEmpty_iff.1 hemp)]
      rw [← Option.some.inj hres]
      rfl
    · rw [if_neg hemp] at hres
      by_cases hguard : ((crossingIdx geo positions gate thresh).any
          (fun i => decide (positions.length ≤ i + 1))) = true
      · rw [if_pos hguard] at hres
        exact absurd hres (by simp)
      · rw [if_neg hguard] at hres
        exact (Option.some.inj hres).symm

theorem ceClose : closeOverride geoCE tCE gateCE 1 =
    [{ mkP 0 0 with lat := 0, bearing := 90 }, { mkP 10 1 with lat := 1, bearing := 90 },
      { mkP 20 2 with lat := 2, bearing := 90 }, { mkP 30 3 with lat := 3, bearing := 90 }] := by
  norm_num [closeOverride, setBearingAll, copyTrack, closeList, geoCE, tCE, gateCE, mkP,
    List.filter]

theorem ceInters : intersList geoCE tCE gateCE 1 = [0, 1, 2, 3] := by
  unfold intersList
  rw [ceClose]
  norm_num [geoCE, mkP]

theorem ceSgns : sgnsList geoCE tCE gateCE 1 = [1, -1, -1, -1] := by
  unfold sgnsList
  rw [ceInters]
  norm_num [geoCE, gateCE, sgnCosDeg]

theorem ceHavs : havsList geoCE tCE gateCE 1 = [1, 1, 1, 2] := by
  unfold havsList
  rw [ceInters]
  norm_num [geoCE, gateCE]

theorem ceCross : crossingIdx geoCE tCE gateCE 1 = [1] := by
  unfold crossingIdx
  rw [ceSgns]
  norm_num [List.range_succ, List.filter]

theorem ceWeight : weightAt (havsList geoCE tCE gateCE 1) 1 = 1/4 := by
  rw [ceHavs]
  norm_num [weightAt]

theorem crossCEEval : findCrossingTimes geoCE tCE gateCE 1 = some [(5/4, 25/2)] := by
  have hd1 : (tCE.getD 1 default).distance = 1 := rfl
  have hd2 : (tCE.getD (1 + 1) default).distance = 2 := rfl
  have ht1 : (tCE.getD 1 default).time = 10 := rfl
  have ht2 : (tCE.getD (1 + 1) default).time = 20 := rfl
  have hlen : tCE.length = 4 := rfl
  unfold findCrossingTimes
  rw [ceSgns, ceCross]
  simp only [List.map_cons, List.map_nil, hd1, hd2, ht1, ht2, ceWeight, hlen]
  norm_num [round3, roundHalfEven, Int.fract, round_eq]

theorem crossClaimCEEval : findCrossingTimes_claim geoCE tCE gateCE 1 = some [(3/2, 15)] := by
  have hd1 : ((closeOverride geoCE tCE gateCE 1).getD 1 default).distance = 1 := by
    rw [ceClose]
    rfl
  have hd2 : ((closeOverride geoCE tCE gateCE 1).getD (1 + 1) default).distance = 2 := by
    rw [ceClose]
    rfl
  have ht1 : ((closeOverride geoCE tCE gateCE 1).getD 1 default).time = 10 := by
    rw [ceClose]
    rfl
  have ht2 : ((closeOverride geoCE tCE gateCE 1).getD (1 + 1) default).time = 20 := by
    rw [ceClose]
    rfl
  have hlen : (closeOverride geoCE tCE gateCE 1).length = 4 := by
    rw [ceClose]
    rfl
  have hh1 : (havsList geoCE tCE gateCE 1).getD 1 0 = 1 := by
    rw [ceHavs]
    rfl
  have hh2 : (havsList geoCE tCE gateCE 1).getD (1 + 1) 0 = 1 := by
    rw [ceHavs]
    rfl
  unfold findCrossingTimes_claim
  rw [ceSgns, ceCross]
  simp only [List.map_cons, List.map_nil, hd1, hd2, ht1, ht2, hh1, hh2, hlen]
  norm_num [round3, roundHalfEven, Int.fract, round_eq]

/-- Counterexample to C2 as stated: on four retained points with a
crossing at retained index 1 and three following intersections at
haversine distances 1, 1, 2, the source computes weight
`1/(1+1+2) = 1/4` (time 12.5), while the claim's two-distance rule
`1/(1+1) = 1/2` gives time 15. -/
theorem C2_counterexample :
    findCrossingTimes geoCE tCE gateCE 1 = some [(5/4, 25/2)] ∧
    findCrossingTimes_claim geoCE tCE gateCE 1 = some [(3/2, 15)] ∧
    findCrossingTimes geoCE tCE gateCE 1 ≠ findCrossingTimes_claim geoCE tCE gateCE 1 := by
  refine ⟨crossCEEval, crossClaimCEEval, ?_⟩
  rw [crossCEEval, crossClaimCEEval]
  intro h
  have h2 := List.head_eq_of_cons_eq (Option.some.inj h)
  have h3 := congrArg Prod.snd h2
  norm_num at h3

/-- Witness for the amended C2 at the concrete instance `geoCE`/`tCE`. -/
theorem C2_witness :
    (∀ i ∈ crossingIdx geoCE tCE gateCE 1, i + 1 < tCE.length) ∧
    [((5 : ℚ)/4, (25 : ℚ)/2)] = (crossingIdx geoCE tCE gateCE 1).map (fun i =>
      (round3 ((tCE.getD i default).distance +
          ((tCE.getD (i + 1) default).distance - (tCE.getD i default).distance) *
            weightAt (havsList geoCE tCE gateCE 1) i),
        (tCE.getD i default).time +
          ((tCE.getD (i + 1) default).time - (tCE.getD i default).time) *
            weightAt (havsList geoCE tCE gateCE 1) i)) ∧
    (∀ (hs : List ℚ) (i : ℕ), i + 2 < hs.length →
      weightAt hs i =
        hs.getD i 0 / (hs.getD i 0 + (hs.getD (i + 1) 0 + hs.getD (i + 2) 0))) :=
  C2_crossing_formula geoCE tCE gateCE 1 [(5/4, 25/2)] crossCEEval
